import Mathlib

/-!
Verification of core behaviours of the `free-claude-code` broker.

The Python source is shallowly embedded: pure fragments become Lean
functions over `List Char` / `ℚ` / association lists, stateful fragments
become explicit state-passing functions, and the event-loop interleaving
is modelled by explicit sequences of operations.  Timestamps produced by
`time.monotonic()` are modelled as rationals; monotonicity of the clock is
an explicit hypothesis on the recorded sequences.
-/

namespace Spec2Proof

/-! ## C1 — sliding-window limiters

`src/messaging/limiter.py`, `SlidingWindowLimiter.acquire` and
`src/providers/rate_limit.py`, `GlobalRateLimiter._acquire_proactive_slot`.

Both keep a deque of grant timestamps.  Under the lock they drop
timestamps `≤ now - rate_window`, then grant (appending `now`) iff fewer
than `rate_limit` timestamps remain; otherwise the caller sleeps and
retries.  One locked attempt is one `slidingAcquireStep` /
`proactiveSlotStep`; a whole execution is a monotone sequence of attempt
times, successful attempts being the grants. -/

/-- The `while self._times and self._times[0] <= cutoff: popleft()` loop of
`SlidingWindowLimiter.acquire` (identical in
`GlobalRateLimiter._acquire_proactive_slot`). -/
def pruneTimes (cutoff : ℚ) : List ℚ → List ℚ
  | [] => []
  | t :: rest => if t ≤ cutoff then pruneTimes cutoff rest else t :: rest

/-- One locked attempt of `SlidingWindowLimiter.acquire`: prune, then grant
(`some` of the new deque) iff the deque holds fewer than `rate_limit`
timestamps; `none` means the caller computes a wait time and retries. -/
def slidingAcquireStep (rateLimit : ℕ) (rateWindow : ℚ) (times : List ℚ) (now : ℚ) :
    Option (List ℚ) :=
  let pruned := pruneTimes (now - rateWindow) times
  if pruned.length < rateLimit then some (pruned ++ [now]) else none

/-- Run a sequence of locked acquire attempts at the given monotone times.
Returns the final deque and the list of granted (admitted) timestamps. -/
def slidingAcquireRun (rateLimit : ℕ) (rateWindow : ℚ) :
    List ℚ → List ℚ → List ℚ × List ℚ
  | times, [] => (times, [])
  | times, now :: rest =>
    match slidingAcquireStep rateLimit rateWindow times now with
    | some times' =>
      let r := slidingAcquireRun rateLimit rateWindow times' rest
      (r.1, now :: r.2)
    | none => slidingAcquireRun rateLimit rateWindow times rest

/-- One locked attempt of `GlobalRateLimiter._acquire_proactive_slot`
(`src/providers/rate_limit.py` lines 102–122); the body is the same
prune/check/append algorithm over `self._request_times`. -/
def proactiveSlotStep (rateLimit : ℕ) (rateWindow : ℚ) (requestTimes : List ℚ) (now : ℚ) :
    Option (List ℚ) :=
  let pruned := pruneTimes (now - rateWindow) requestTimes
  if pruned.length < rateLimit then some (pruned ++ [now]) else none

/-- Run of `GlobalRateLimiter._acquire_proactive_slot` attempts. -/
def proactiveSlotRun (rateLimit : ℕ) (rateWindow : ℚ) :
    List ℚ → List ℚ → List ℚ × List ℚ
  | times, [] => (times, [])
  | times, now :: rest =>
    match proactiveSlotStep rateLimit rateWindow times now with
    | some times' =>
      let r := proactiveSlotRun rateLimit rateWindow times' rest
      (r.1, now :: r.2)
    | none => proactiveSlotRun rateLimit rateWindow times rest

/-- Number of grants with timestamp in the half-open window `(t, t + W]`. -/
def windowCount (rateWindow t : ℚ) (grants : List ℚ) : ℕ :=
  grants.countP (fun g => decide (t < g ∧ g ≤ t + rateWindow))

/-- Grant histories reachable by the sliding-window admission rule: each new
grant `g` is admitted only while fewer than `N` earlier grants lie in
`(g - W, ∞)`. -/
inductive Admissible (rateLimit : ℕ) (rateWindow : ℚ) : List ℚ → Prop
  | nil : Admissible rateLimit rateWindow []
  | snoc (gs : List ℚ) (g : ℚ)
      (hcount : gs.countP (fun x => decide (g - rateWindow < x)) < rateLimit)
      (hle : ∀ x ∈ gs, x ≤ g)
      (hadm : Admissible rateLimit rateWindow gs) :
      Admissible rateLimit rateWindow (gs ++ [g])

/-! ## C5 — messaging rate limiter queue with task compaction

`src/messaging/limiter.py`, `MessagingRateLimiter._enqueue_internal_multi`
(lines 246–262) and `MessagingRateLimiter._worker` (lines 130–203).

State: `_queue_list` (deque of dedup keys in FIFO order) and `_queue_map`
(dict `dedup_key → (callable, futures)`).  Python dicts preserve insertion
order and update values in place; we model the dict as an association
list with first-key lookup and in-place update. -/

/-- Outcome of awaiting a callable: `func()` returns a value or raises. -/
inductive Outcome (V E : Type) : Type
  | ok (v : V)
  | exc (e : E)

/-- State of `MessagingRateLimiter`'s custom queue. `F` is the type of the
stored callables, `Wt` the type of waiter futures. -/
structure MsgLimiterState (F Wt : Type) : Type where
  queueList : List String
  queueMap : List (String × F × List Wt)

/-- Dict lookup (first matching key). -/
def mapLookup {F Wt : Type} : List (String × F × List Wt) → String → Option (F × List Wt)
  | [], _ => none
  | (k, v) :: rest, key => if k = key then some v else mapLookup rest key

/-- Dict assignment `d[key] = v`: replace in place if present, else append
(Python dicts keep insertion order). -/
def mapSet {F Wt : Type} :
    List (String × F × List Wt) → String → F × List Wt → List (String × F × List Wt)
  | [], key, v => [(key, v)]
  | (k, w) :: rest, key, v =>
    if k = key then (k, v) :: rest else (k, w) :: mapSet rest key v

/-- Dict removal `d.pop(key)` (the mapping part; the popped value is read
separately with `mapLookup`). -/
def mapRemove {F Wt : Type} :
    List (String × F × List Wt) → String → List (String × F × List Wt)
  | [], _ => []
  | (k, w) :: rest, key =>
    if k = key then rest else (k, w) :: mapRemove rest key

/-- `MessagingRateLimiter._enqueue_internal_multi(func, futures, dedup_key,
front)`: under the condition, either compact (replace the callable, append
the futures, leave the queue order untouched) or insert a fresh entry. -/
def enqueueInternalMulti {F Wt : Type} (func : F) (futures : List Wt)
    (dedupKey : String) (front : Bool) (st : MsgLimiterState F Wt) :
    MsgLimiterState F Wt :=
  match mapLookup st.queueMap dedupKey with
  | some (_, oldFutures) =>
    { st with queueMap := mapSet st.queueMap dedupKey (func, oldFutures ++ futures) }
  | none =>
    { queueList := if front then dedupKey :: st.queueList else st.queueList ++ [dedupKey]
      queueMap := mapSet st.queueMap dedupKey (func, futures) }

/-- `MessagingRateLimiter._enqueue_internal(func, future, dedup_key)`:
the single-waiter wrapper used by `enqueue`. -/
def enqueueInternal {F Wt : Type} (func : F) (future : Wt) (dedupKey : String)
    (st : MsgLimiterState F Wt) : MsgLimiterState F Wt :=
  enqueueInternalMulti func [future] dedupKey false st

/-- One iteration of `MessagingRateLimiter._worker` for a non-empty queue:
pop the front dedup key and its map entry, await the callable, and resolve
every waiter future with the callable's outcome (`set_result` on success,
`set_exception` on failure).  `run` gives each callable's outcome; `none`
is returned when the queue is empty (the worker waits) — the
`queue_map.pop` on a listed key cannot fail because every listed key has a
map entry. -/
def workerStep {F Wt V E : Type} (run : F → Outcome V E) (st : MsgLimiterState F Wt) :
    Option (MsgLimiterState F Wt × List (Wt × Outcome V E)) :=
  match st.queueList with
  | [] => none
  | dedupKey :: rest =>
    match mapLookup st.queueMap dedupKey with
    | none => none
    | some (func, futures) =>
      some ({ queueList := rest, queueMap := mapRemove st.queueMap dedupKey },
            futures.map (fun w => (w, run func)))

/-! ## C6 — tree error propagation

`src/messaging/tree_queue.py`, `TreeQueueManager.mark_node_error`
(lines 570–609) and `TreeQueueManager.get_pending_children`
(lines 545–568).

A node and the subtree below it are embedded as a rose tree (the Python
code stores nodes in a dict keyed by id with `children_ids` lists; a tree
built through `add_node` is acyclic, so the subtree of the target node is
a finite rose tree).  `created_at`/`completed_at` timestamps and the
`incoming`/`status_message_id` payload fields do not affect these
operations and are omitted. -/

/-- `MessageState`. -/
inductive NodeSt : Type
  | pending
  | inProgress
  | completed
  | error
  deriving DecidableEq, Repr

/-- A message node with the subtree below it. -/
inductive MNode : Type
  | node (nodeId : String) (state : NodeSt) (errorMessage : Option String)
      (children : List MNode)

def MNode.nodeId : MNode → String
  | .node i _ _ _ => i

def MNode.state : MNode → NodeSt
  | .node _ s _ _ => s

def MNode.errorMessage : MNode → Option String
  | .node _ _ e _ => e

def MNode.children : MNode → List MNode
  | .node _ _ _ cs => cs

mutual
/-- `TreeQueueManager.get_pending_children(node_id)`: for each child in
order, if the child is PENDING, collect it and recurse into it;
children in other states are skipped together with their subtrees. -/
def pendingDescendants : MNode → List MNode
  | .node _ _ _ cs => pendingDescList cs

def pendingDescList : List MNode → List MNode
  | [] => []
  | c :: cs =>
    (if c.state = .pending then c :: pendingDescendants c else []) ++ pendingDescList cs
end

mutual
/-- The propagation pass of `TreeQueueManager.mark_node_error`: every
collected pending descendant is set to ERROR with message
`"Parent failed: <msg>"`.  Applied to a node, this updates it (and
recurses below it) only when it is PENDING.  `update_state` assigns
`error_message` only under an `if error_message:` truthiness guard, but
`"Parent failed: " + msg` is never empty, so here the guard always
passes and the assignment is unconditional. -/
def markPending (msg : String) : MNode → MNode
  | .node i st em cs =>
    if st = .pending then
      .node i .error (some ("Parent failed: " ++ msg)) (markPendingList msg cs)
    else
      .node i st em cs

def markPendingList (msg : String) : List MNode → List MNode
  | [] => []
  | c :: cs => markPending msg c :: markPendingList msg cs
end

/-- `TreeQueueManager.mark_node_error(node_id, msg, propagate=True)`
restricted to the subtree of the target node: the target becomes ERROR
and — because `update_state` assigns `error_message` only under an
`if error_message:` truthiness guard — its message becomes `msg` when
`msg` is nonempty and is left unchanged when `msg` is the empty string;
pending descendants reachable through pending chains become ERROR with
`"Parent failed: <msg>"`, and the returned list holds the target
followed by the collected pending descendants (here: their ids, in the
DFS order `get_pending_children` produces). -/
def markNodeError (n : MNode) (msg : String) : MNode × List String :=
  match n with
  | .node i _ em cs =>
    (.node i .error (if msg = "" then em else some msg) (markPendingList msg cs),
     i :: (pendingDescList cs).map MNode.nodeId)

/-- Navigate to the node at a child-index path (empty path = the node
itself). -/
def MNode.getPath : MNode → List ℕ → Option MNode
  | n, [] => some n
  | .node _ _ _ cs, i :: p =>
    match cs[i]? with
    | some c => c.getPath p
    | none => none

/-- The path reaches a node and every node along it (including the one it
reaches, excluding the root) is PENDING. -/
def pendingChain : MNode → List ℕ → Bool
  | _, [] => true
  | .node _ _ _ cs, i :: p =>
    match cs[i]? with
    | some c => (c.state = .pending : Bool) && pendingChain c p
    | none => false

/-- Concrete counterexample tree for C6: the target has one COMPLETED
child whose own child is PENDING. -/
def c6Tree : MNode :=
  .node "n" .pending none
    [.node "c" .completed none
      [.node "g" .pending none []]]

/-- Concrete witness tree for C6: one PENDING child. -/
def w6Tree : MNode :=
  .node "a" .inProgress none [.node "b" .pending none []]

/-! ## C7 / C10 — session store (`src/messaging/session.py`)

`SessionStore` keeps `_sessions`, `_msg_to_session`, `_trees`,
`_node_to_tree`, `_message_log`, `_message_log_ids` in memory and mirrors
them to one JSON file through `_save()`.  Python dicts are embedded as
insertion-ordered association lists; the `_message_log_ids` sets as
insertion-ordered lists with membership dedup.  `datetime.now()` strings
are passed in as arguments. -/

/-- Generic dict lookup. -/
def alistLookup {α : Type} : List (String × α) → String → Option α
  | [], _ => none
  | (k, v) :: rest, key => if k = key then some v else alistLookup rest key

/-- Generic dict assignment (replace in place or append). -/
def alistSet {α : Type} : List (String × α) → String → α → List (String × α)
  | [], key, v => [(key, v)]
  | (k, w) :: rest, key, v =>
    if k = key then (k, v) :: rest else (k, w) :: alistSet rest key v

/-- One `_message_log` entry. -/
structure LogRec : Type where
  messageId : String
  ts : String
  direction : String
  kind : String
  deriving DecidableEq, Repr

/-- A value of a session-record JSON field. -/
inductive JField : Type
  | str (s : String)
  | int (n : Int)
  deriving DecidableEq, Repr

/-- `SessionRecord` dataclass. -/
structure SessionRecord : Type where
  sessionId : JField
  chatId : String
  initialMsgId : String
  lastMsgId : String
  platform : JField
  createdAt : JField
  updatedAt : JField
  deriving DecidableEq, Repr

/-- One raw `sessions` entry of the JSON file (fields possibly absent). -/
structure RecordData : Type where
  sessionId : Option JField
  chatId : Option JField
  initialMsgId : Option JField
  lastMsgId : Option JField
  platform : Option JField
  createdAt : Option JField
  updatedAt : Option JField

/-- In-memory state of `SessionStore` (storage path and lock omitted). -/
structure SessionStoreState : Type where
  sessions : List (String × SessionRecord)
  msgToSession : List (String × String)
  trees : List (String × String)
  nodeToTree : List (String × String)
  messageLog : List (String × List LogRec)
  messageLogIds : List (String × List String)

def emptySessionStore : SessionStoreState := ⟨[], [], [], [], [], []⟩

/-- `SessionStore._make_key`. -/
def makeKey (platform chatId msgId : String) : String :=
  platform ++ ":" ++ chatId ++ ":" ++ msgId

/-- `SessionStore._make_chat_key`. -/
def makeChatKey (platform chatId : String) : String :=
  platform ++ ":" ++ chatId

/-- `str()` of an id field as `_load` applies it to `chat_id`,
`initial_msg_id`, `last_msg_id`. -/
def jfieldToStr : JField → String
  | .str s => s
  | .int n => toString n

/-- `SessionRecord(**record_data)` after `_load`'s preprocessing: default a
missing `platform` to `"telegram"`, convert int ids to strings; a missing
required field raises `TypeError`. -/
def buildRecord (rd : RecordData) : Except String SessionRecord :=
  let platform := rd.platform.getD (.str "telegram")
  match rd.sessionId, rd.chatId, rd.initialMsgId, rd.lastMsgId,
      rd.createdAt, rd.updatedAt with
  | some sid, some cid, some imid, some lmid, some cat, some uat =>
    .ok ⟨sid, jfieldToStr cid, jfieldToStr imid, jfieldToStr lmid, platform, cat, uat⟩
  | _, _, _, _, _, _ => .error "TypeError: missing required field"

/-- The `for sid, record_data in data.get("sessions", {}).items()` loop of
`SessionStore._load`: entries processed in order; the first failing entry
raises, aborting the loop with all earlier insertions kept (the
surrounding `try` catches the exception).  Returns the state so far and
whether an exception occurred. -/
def loadSessionsFold (st : SessionStoreState) :
    List (String × RecordData) → SessionStoreState × Bool
  | [] => (st, false)
  | (sid, rd) :: rest =>
    match buildRecord rd with
    | .error _ => (st, true)
    | .ok rec =>
      let platformStr := jfieldToStr rec.platform
      loadSessionsFold
        { st with
          sessions := alistSet st.sessions sid rec
          msgToSession :=
            alistSet
              (alistSet st.msgToSession (makeKey platformStr rec.chatId rec.initialMsgId) sid)
              (makeKey platformStr rec.chatId rec.lastMsgId) sid }
        rest

/-- Whether a raw sessions entry builds a `SessionRecord` without raising. -/
def isOkRecordEntry (e : String × RecordData) : Bool :=
  match buildRecord e.2 with
  | .ok _ => true
  | .error _ => false

/-- The message-log cleaning loop of `_load`: keep the first record for
each `message_id`, in order. -/
def cleanLog (seen : List String) : List LogRec → List LogRec
  | [] => []
  | it :: rest =>
    if it.messageId ∈ seen then cleanLog seen rest
    else it :: cleanLog (seen ++ [it.messageId]) rest

def cleanLogIds (seen : List String) : List LogRec → List String
  | [] => seen
  | it :: rest =>
    if it.messageId ∈ seen then cleanLogIds seen rest
    else cleanLogIds (seen ++ [it.messageId]) rest

def loadMessageLog : List (String × List LogRec) →
    List (String × List LogRec) × List (String × List String)
  | [] => ([], [])
  | (chatKey, items) :: rest =>
    let r := loadMessageLog rest
    ((chatKey, cleanLog [] items) :: r.1, (chatKey, cleanLogIds [] items) :: r.2)

/-- What `SessionStore.__init__`/`_load` can encounter on disk. -/
inductive LoadInput : Type
  | noFile
  | badJson
  | parsed (sessions : List (String × RecordData)) (trees : List (String × String))
      (nodeToTree : List (String × String)) (messageLog : List (String × List LogRec))

/-- `SessionStore._load`: missing file → empty store; unparseable JSON →
exception caught, empty store; parseable file → load sessions (partial on
a bad record: the exception skips trees/node_to_tree/message_log too),
then trees, node_to_tree, and the cleaned message log.  Never raises. -/
def loadStore : LoadInput → SessionStoreState
  | .noFile => emptySessionStore
  | .badJson => emptySessionStore
  | .parsed sessionEntries treeEntries nodeToTree messageLog =>
    let r := loadSessionsFold emptySessionStore sessionEntries
    if r.2 then r.1
    else
      let ml := loadMessageLog messageLog
      { r.1 with
        trees := treeEntries
        nodeToTree := nodeToTree
        messageLog := ml.1
        messageLogIds := ml.2 }

/-- `SessionStore.record_message_id(platform, chat_id, message_id,
direction, kind)`: early-return on a duplicate id (no disk write),
otherwise append the record, register the id as seen, apply the optional
environment-configured cap (`MAX_MESSAGE_LOG_ENTRIES_PER_CHAT`, keep the
newest `cap` entries), and call `_save()` once.  The second component
counts the disk writes performed (`_save` calls). -/
def recordMessageId (st : SessionStoreState)
    (platform chatId messageId direction kind ts : String) (cap : Option ℕ) :
    SessionStoreState × ℕ :=
  let chatKey := makeChatKey platform chatId
  let mid := messageId
  let seen := (alistLookup st.messageLogIds chatKey).getD []
  if mid ∈ seen then (st, 0)
  else
    let rec0 : LogRec := ⟨mid, ts, direction, kind⟩
    let items := (alistLookup st.messageLog chatKey).getD [] ++ [rec0]
    let seen' := seen ++ [mid]
    let (itemsF, seenF) :=
      match cap with
      | some c =>
        if 0 < c ∧ c < items.length then
          let kept := items.drop (items.length - c)
          (kept, kept.map LogRec.messageId)
        else (items, seen')
      | none => (items, seen')
    ({ st with
        messageLog := alistSet st.messageLog chatKey itemsF
        messageLogIds := alistSet st.messageLogIds chatKey seenF }, 1)

/-- Run a sequence of `record_message_id` calls, summing disk writes. -/
def recordMessageIdSeq (st : SessionStoreState)
    (ops : List (String × String × String × String × String × String)) (cap : Option ℕ) :
    SessionStoreState × ℕ :=
  match ops with
  | [] => (st, 0)
  | (p, c, m, d, k, ts) :: rest =>
    let r := recordMessageId st p c m d k ts cap
    let r' := recordMessageIdSeq r.1 rest cap
    (r'.1, r.2 + r'.2)

/-- The control-flow outcome of `SessionStore._save()`: its whole body is
wrapped in `try/except Exception` (the exception is only logged), so the
call returns normally whether or not the write succeeds — modelled as
`.ok ()` for either value of `writeOk`.  Nothing is modelled about the
on-disk bytes after a failed write: `_save` truncates the file with
`open(path, "w")` before `json.dump`, so a mid-write failure can leave a
truncated file rather than the old image. -/
def saveOutcome : Bool → Except String Unit :=
  fun _ => .ok ()

/-- `record_message_id` including the `_save` call: the new in-memory
state, the outcome of the `_save` call (`.ok ()` when no write was
attempted), and the number of writes attempted. -/
def recordMessageIdOp (writeOk : Bool) (st : SessionStoreState)
    (platform chatId messageId direction kind ts : String) (cap : Option ℕ) :
    SessionStoreState × Except String Unit × ℕ :=
  let r := recordMessageId st platform chatId messageId direction kind ts cap
  (r.1, (if r.2 = 1 then saveOutcome writeOk else .ok ()), r.2)

/-- C10 counterexample input: a valid session record followed by one with
a missing `created_at`. -/
def c10Good : RecordData :=
  ⟨some (.str "s1"), some (.int 7), some (.str "10"), some (.str "11"),
   some (.str "telegram"), some (.str "2024-01-01"), some (.str "2024-01-02")⟩

def c10Bad : RecordData :=
  ⟨some (.str "s2"), some (.str "8"), some (.str "20"), some (.str "21"),
   some (.str "telegram"), none, some (.str "2024-01-02")⟩

def c10Input : LoadInput :=
  .parsed [("s1", c10Good), ("s2", c10Bad)] [("t", "x")] [("n", "t")] []

/-! ## C8 — Anthropic→OpenAI user-message conversion

`src/providers/nvidia_nim/utils/message_converter.py`,
`AnthropicToOpenAIConverter._convert_user_message` (lines 115–150).
The claim's scope is content lists of `text` and `tool_result` blocks
with string `tool_result.content` (for a string `c`,
`str(c) if c else ""` is `c` itself). -/

inductive UserBlock : Type
  | text (s : String)
  | toolResult (toolUseId : String) (content : String)
  deriving DecidableEq, Repr

inductive OpenAIMsg : Type
  | user (content : String)
  | tool (toolCallId : String) (content : String)
  deriving DecidableEq, Repr

/-- `flush_text()`: one batched `{role: user}` message from the gathered
text parts, or nothing when none are pending. -/
def flushTextMsgs (parts : List String) : List OpenAIMsg :=
  if parts = [] then [] else [.user (String.intercalate "\n" parts)]

/-- The block loop of `_convert_user_message`, carrying `text_parts`. -/
def convertUserMessageAux : List UserBlock → List String → List OpenAIMsg
  | [], parts => flushTextMsgs parts
  | .text s :: rest, parts => convertUserMessageAux rest (parts ++ [s])
  | .toolResult tid c :: rest, parts =>
    flushTextMsgs parts ++ .tool tid c :: convertUserMessageAux rest []

/-- `AnthropicToOpenAIConverter._convert_user_message`. -/
def convertUserMessage (content : List UserBlock) : List OpenAIMsg :=
  convertUserMessageAux content []

def isTextBlock : UserBlock → Bool
  | .text _ => true
  | .toolResult _ _ => false

def textOf : UserBlock → String
  | .text s => s
  | .toolResult _ c => c

/-- Reference form of the conversion: tool results stay in place, each
maximal run of text blocks becomes one user message joined by `"\n"`. -/
def refConvertUser : List UserBlock → List OpenAIMsg
  | [] => []
  | .toolResult tid c :: rest => .tool tid c :: refConvertUser rest
  | .text s :: rest =>
    .user (String.intercalate "\n" (s :: (rest.takeWhile isTextBlock).map textOf)) ::
      refConvertUser (rest.dropWhile isTextBlock)
termination_by l => l.length
decreasing_by
  · simp only [List.length_cons]
    omega
  · simp only [List.length_cons]
    exact Nat.lt_succ_of_le (List.dropWhile_suffix _).length_le

/-! ## C4 — `Task` tool `run_in_background` override

`src/providers/nvidia_nim/client.py`: the heuristic-recovery emission
(lines 143–163 of `_stream_response_impl`), the heuristic flush emission
(lines 211–231), and `_process_tool_call`'s native `Task` branch
(lines 298–303), which delegates to `ContentBlockManager.buffer_task_args`
/ `flush_task_arg_buffers` — that class lives in
`providers/nvidia_nim/utils/sse_builder.py`, which is not present under
src/, so those two methods are modelled from the spec (§4.9). -/

/-- A JSON value (the shapes `json.loads`/`json.dumps` exchange here). -/
inductive JVal : Type
  | str (s : String)
  | jbool (b : Bool)
  | num (n : Int)
  | obj (fields : List (String × JVal))

/-- Python dict assignment `d[k] = v` on a JSON object: replace in place
if the key exists, else append. -/
def setField : List (String × JVal) → String → JVal → List (String × JVal)
  | [], key, v => [(key, v)]
  | (k, w) :: rest, key, v =>
    if k = key then (k, v) :: rest else (k, w) :: setField rest key v

def lookupField : List (String × JVal) → String → Option JVal
  | [], _ => none
  | (k, w) :: rest, key => if k = key then some w else lookupField rest key

/-- An Anthropic `tool_use` dict as produced by the heuristic parser or a
caller. -/
structure ToolUseBlock : Type where
  id : String
  name : String
  input : JVal

/-- A tool block as it reaches the wire: `content_block_start(id, name)`,
one `input_json_delta` carrying `json.dumps` of `inputJson`, and a
`content_block_stop`. -/
structure EmittedToolBlock : Type where
  index : ℕ
  id : String
  name : String
  inputJson : JVal

/-- `if tool_use.get("name") == "Task" and isinstance(tool_use.get("input"),
dict): tool_use["input"]["run_in_background"] = False`. -/
def taskOverride (name : String) (input : JVal) : JVal :=
  match input with
  | .obj fields =>
    if name = "Task" then .obj (setField fields "run_in_background" (.jbool false))
    else .obj fields
  | v => v

/-- Heuristic mid-stream path (client.py lines 143–163): the override is
applied before `content_block_start`; the delta payload is the overridden
input. -/
def emitDetectedToolStream (blockIdx : ℕ) (tu : ToolUseBlock) : EmittedToolBlock :=
  ⟨blockIdx, tu.id, tu.name, taskOverride tu.name tu.input⟩

/-- Heuristic flush path (client.py lines 211–231): `content_block_start`
is emitted first and the override applied just before the
`input_json_delta`; the delta payload is the same overridden input. -/
def emitDetectedToolFlush (blockIdx : ℕ) (tu : ToolUseBlock) : EmittedToolBlock :=
  ⟨blockIdx, tu.id, tu.name, taskOverride tu.name tu.input⟩

/-- Per-stream-index buffer state for a `Task` tool's argument fragments. -/
structure TaskArgBuffer : Type where
  buffer : String
  emitted : Bool

/-- Modelled from the spec: `ContentBlockManager.buffer_task_args`
(`sse_builder.py`, absent from src/) — "buffer fragments until the
accumulated buffer is a parseable JSON object, mutate
`run_in_background=false`, emit one `input_json_delta` with the rewritten
JSON, and mark it as emitted so further fragments are ignored".
`parseJsonObj` stands for `json.loads` restricted to objects. -/
def bufferTaskArgs (parseJsonObj : String → Option (List (String × JVal)))
    (tb : TaskArgBuffer) (frag : String) :
    TaskArgBuffer × Option (List (String × JVal)) :=
  if tb.emitted then (tb, none)
  else
    let buf := tb.buffer ++ frag
    match parseJsonObj buf with
    | some fields =>
      ({ buffer := buf, emitted := true },
       some (setField fields "run_in_background" (.jbool false)))
    | none => ({ buffer := buf, emitted := false }, none)

/-- Modelled from the spec: `ContentBlockManager.flush_task_arg_buffers`
(`sse_builder.py`, absent from src/) — "if EOF arrives before
parseability, emit whatever was buffered as-is". -/
def flushTaskArgBuffer (tb : TaskArgBuffer) : Option String :=
  if tb.emitted = false ∧ tb.buffer ≠ "" then some tb.buffer else none

/-! ## C3 / C9 — heuristic tool parser

`src/providers/nvidia_nim/utils/heuristic_tool_parser.py`.  Strings are
embedded as `List Char` (Python `str` indexes code points, as `List Char`
does).  The three concrete regexes are hand-compiled:
`<\|[^|>]{1,80}\|>` (control tokens), `●\s*<function=([^>]+)>` and
`<parameter=([^>]+)>(.*?)(?:</parameter>|$)` with `re.DOTALL`, where `$`
matches at the end of the string or just before a final newline. -/

/-- Python `s.find(pat)` over `List Char` (first occurrence index). -/
def findSub (pat : List Char) (s : List Char) : Option ℕ :=
  if pat.isPrefixOf s then some 0
  else
    match s with
    | [] => none
    | _ :: t => (findSub pat t).map (· + 1)

/-- Python `s.rfind(pat)` (last occurrence index). -/
def rfindSub (pat : List Char) (s : List Char) : Option ℕ :=
  match s with
  | [] => if pat.isPrefixOf [] then some 0 else none
  | a :: t =>
    match rfindSub pat t with
    | some i => some (i + 1)
    | none => if pat.isPrefixOf (a :: t) then some 0 else none

/-- Python `\s` / `str.strip()` whitespace (the ASCII set; the inputs of
interest contain no other Unicode whitespace). -/
def isPySpace (c : Char) : Bool :=
  c = ' ' || c = '\t' || c = '\n' || c = '\r' || c = '\x0b' || c = '\x0c'

/-- `str.lstrip()`. -/
def trimLeft (s : List Char) : List Char := s.dropWhile isPySpace

/-- `str.strip()`. -/
def trimBoth (s : List Char) : List Char :=
  ((s.dropWhile isPySpace).reverse.dropWhile isPySpace).reverse

def CONTROL_END : List Char := ['|', '>']

def FUNC_TAG : List Char := "<function=".data

def PARAM_TAG : List Char := "<parameter=".data

def PARAM_CLOSE : List Char := "</parameter>".data

/-- The scan of `_CONTROL_TOKEN_RE.sub("", text)`: at each `<|` try
`[^|>]{1,80}` followed by `|>` (the bounded run of non-`|`/`>` chars is
forced, so the match succeeds exactly when the maximal such run has
length 1..80 and is followed by `|>`); drop matches, keep everything
else.  Every step consumes at least one character, so fuel equal to the
input length is never exhausted. -/
def stripControlTokensGo : ℕ → List Char → List Char
  | 0, s => s
  | _, [] => []
  | fuel + 1, '<' :: '|' :: t =>
    let run := t.takeWhile (fun ch => (ch != '|') && (ch != '>'))
    if 1 ≤ run.length ∧ run.length ≤ 80 ∧ CONTROL_END.isPrefixOf (t.drop run.length) then
      stripControlTokensGo fuel (t.drop (run.length + 2))
    else '<' :: stripControlTokensGo fuel ('|' :: t)
  | fuel + 1, c :: rest => c :: stripControlTokensGo fuel rest

/-- `_CONTROL_TOKEN_RE.sub("", text)`. -/
def stripControlTokens (s : List Char) : List Char :=
  stripControlTokensGo s.length s

/-- `HeuristicToolParser._split_incomplete_control_token_tail`: returns
the safe-to-emit prefix and the new buffer. -/
def splitIncompleteControlTokenTail (buffer : List Char) :
    List Char × List Char :=
  match rfindSub ['<', '|'] buffer with
  | none => ([], buffer)
  | some s =>
    match findSub CONTROL_END (buffer.drop s) with
    | some _ => ([], buffer)
    | none => (buffer.take s, buffer.drop s)

/-- Try `\s*<function=([^>]+)>` at a position just after a `●`; returns
the captured name and the buffer remainder after the `>`. -/
def matchFuncAt (s : List Char) : Option (List Char × List Char) :=
  let afterWs := s.dropWhile isPySpace
  if FUNC_TAG.isPrefixOf afterWs then
    let afterTag := afterWs.drop FUNC_TAG.length
    let name := afterTag.takeWhile (fun ch => ch != '>')
    if 1 ≤ name.length ∧ (afterTag.drop name.length).head? = some '>' then
      some (name, afterTag.drop (name.length + 1))
    else none
  else none

/-- `func_start_pattern.search(buffer)` combined with
`buffer = buffer[match.end():]`: find the first `●` from which
`\s*<function=([^>]+)>` matches; everything up to and including the match
is consumed. -/
def funcStartSearch : List Char → Option (List Char × List Char)
  | [] => none
  | c :: rest =>
    if c = '●' then
      match matchFuncAt rest with
      | some r => some r
      | none => funcStartSearch rest
    else funcStartSearch rest

/-- Try `<parameter=([^>]+)>(.*?)(?:</parameter>|$)` (DOTALL) at the start
of `s`: returns `(key, value, closed?, match length)`.  The lazy group
stops at the first `</parameter>`; failing that, at `$` (end of string,
or just before a trailing newline). -/
def matchParamAt (s : List Char) : Option (List Char × List Char × Bool × ℕ) :=
  if PARAM_TAG.isPrefixOf s then
    let afterTag := s.drop PARAM_TAG.length
    let key := afterTag.takeWhile (fun ch => ch != '>')
    if 1 ≤ key.length ∧ (afterTag.drop key.length).head? = some '>' then
      let rest := afterTag.drop (key.length + 1)
      match findSub PARAM_CLOSE rest with
      | some d =>
        some (key, rest.take d, true,
          PARAM_TAG.length + key.length + 1 + d + PARAM_CLOSE.length)
      | none =>
        let v := if rest.getLast? = some '\n' then rest.dropLast else rest
        some (key, v, false, PARAM_TAG.length + key.length + 1 + v.length)
    else none
  else none

/-- `param_pattern.search(buffer)`: first position where the parameter
regex matches; returns `(start, key, value, closed?, match length)`. -/
def paramSearch : List Char → ℕ → Option (ℕ × List Char × List Char × Bool × ℕ)
  | [], _ => none
  | c :: cs, idx =>
    match matchParamAt (c :: cs) with
    | some (k, v, cl, len) => some (idx, k, v, cl, len)
    | none => paramSearch cs (idx + 1)

/-- Dict assignment for the `current_parameters` dict. -/
def aupdate {K V : Type} [DecidableEq K] : List (K × V) → K → V → List (K × V)
  | [], key, v => [(key, v)]
  | (k, w) :: rest, key, v =>
    if k = key then (k, v) :: rest else (k, w) :: aupdate rest key v

/-- The inner `while True` of the PARSING_PARAMETERS branch: repeatedly
consume complete (`</parameter>`-terminated) parameter matches, emitting
any text before each match and storing `key.strip() → val.strip()`.
Returns the remaining buffer, the updated parameters, and the filtered
text.  The fuel is bounded by the buffer length (each iteration consumes
at least one character); `hpFeed` supplies enough. -/
def paramConsume : ℕ → List Char → List (List Char × List Char) →
    List Char × List (List Char × List Char) × List Char
  | 0, buffer, params => (buffer, params, [])
  | fuel + 1, buffer, params =>
    match paramSearch buffer 0 with
    | some (start, key, v, true, len) =>
      let pre := buffer.take start
      let r := paramConsume fuel (buffer.drop (start + len))
        (aupdate params (trimBoth key) (trimBoth v))
      (r.1, r.2.1, pre ++ r.2.2)
    | _ => (buffer, params, [])

inductive HPState : Type
  | text
  | matchingFunction
  | parsingParameters
  deriving DecidableEq, Repr

/-- `HeuristicToolParser` state.  `uuid.uuid4().hex[:8]` tool ids are
modelled by a counter. -/
structure HParser : Type where
  state : HPState
  buffer : List Char
  currentToolId : ℕ
  currentFunctionName : List Char
  currentParameters : List (List Char × List Char)
  nextId : ℕ
  deriving DecidableEq, Repr

/-- An Anthropic-format `tool_use` dict emitted by the parser. -/
structure HToolCall : Type where
  id : ℕ
  name : List Char
  input : List (List Char × List Char)
  deriving DecidableEq, Repr

/-- Whether a string starts with `<` (`startswith("<")`). -/
def startsWithLt (s : List Char) : Bool := s.head? = some '<'

/-- The `while True` loop of `HeuristicToolParser.feed`.  One recursive
call is one pass over a state branch; each pass either consumes buffer or
moves strictly down the chain PARSING→TEXT→MATCHING, so
`3 * buffer.length + 9` fuel is never exhausted (the fuel-0 branch is
unreachable from `hpFeed`). -/
def feedGo : ℕ → HParser → HParser × List Char × List HToolCall
  | 0, p => (p, [], [])
  | fuel + 1, p =>
    match p.state with
    | .text =>
      if p.buffer.contains '●' then
        let idx := (p.buffer.takeWhile (fun ch => ch != '●')).length
        let r := feedGo fuel { p with buffer := p.buffer.drop idx, state := .matchingFunction }
        (r.1, p.buffer.take idx ++ r.2.1, r.2.2)
      else
        let sp := splitIncompleteControlTokenTail p.buffer
        if sp.1 ≠ [] then ({ p with buffer := sp.2 }, sp.1, [])
        else ({ p with buffer := [] }, sp.2, [])
    | .matchingFunction =>
      match funcStartSearch p.buffer with
      | some (rawName, rest) =>
        feedGo fuel { p with
          state := .parsingParameters
          buffer := rest
          currentToolId := p.nextId
          currentFunctionName := trimBoth rawName
          currentParameters := []
          nextId := p.nextId + 1 }
      | none =>
        if 100 < p.buffer.length then
          let r := feedGo fuel { p with buffer := p.buffer.drop 1, state := .text }
          (r.1, p.buffer.take 1 ++ r.2.1, r.2.2)
        else (p, [], [])
    | .parsingParameters =>
      let pc := paramConsume (p.buffer.length + 1) p.buffer p.currentParameters
      let buf := pc.1
      let params := pc.2.1
      let filtered0 := pc.2.2
      if buf.contains '●' then
        let idx := (buf.takeWhile (fun ch => ch != '●')).length
        let tool : HToolCall := ⟨p.currentToolId, p.currentFunctionName, params⟩
        let r := feedGo fuel
          { p with state := .text, buffer := buf.drop idx, currentParameters := params }
        (r.1, filtered0 ++ buf.take idx ++ r.2.1, tool :: r.2.2)
      else
        if buf ≠ [] ∧ startsWithLt (trimBoth buf) = false ∧
            startsWithLt (trimLeft buf) = false then
          if (findSub PARAM_TAG buf).isNone then
            let tool : HToolCall := ⟨p.currentToolId, p.currentFunctionName, params⟩
            let r := feedGo fuel
              { p with state := .text, buffer := [], currentParameters := params }
            (r.1, filtered0 ++ buf ++ r.2.1, tool :: r.2.2)
          else ({ p with buffer := buf, currentParameters := params }, filtered0, [])
        else ({ p with buffer := buf, currentParameters := params }, filtered0, [])

/-- `HeuristicToolParser.feed(text)`: append, strip complete control
tokens, then run the state-machine loop.  Returns the new parser, the
filtered text, and the detected tool calls. -/
def hpFeed (p : HParser) (text : List Char) : HParser × List Char × List HToolCall :=
  let buf := stripControlTokens (p.buffer ++ text)
  feedGo (3 * buf.length + 9) { p with buffer := buf }

/-- Try `<parameter=([^>]+)>(.*)$` (DOTALL, greedy) at the start of `s`. -/
def matchFlushParamAt (s : List Char) : Option (List Char × List Char) :=
  if PARAM_TAG.isPrefixOf s then
    let afterTag := s.drop PARAM_TAG.length
    let key := afterTag.takeWhile (fun ch => ch != '>')
    if 1 ≤ key.length ∧ (afterTag.drop key.length).head? = some '>' then
      some (key, afterTag.drop (key.length + 1))
    else none
  else none

/-- `re.finditer(r"<parameter=([^>]+)>(.*)$", buffer, re.DOTALL)`: the
greedy `(.*)$` swallows the rest of the buffer, so there is at most one
match — the first position where the tag and key match. -/
def flushParamSearch : List Char → Option (List Char × List Char)
  | [] => none
  | c :: cs =>
    match matchFlushParamAt (c :: cs) with
    | some r => some r
    | none => flushParamSearch cs

/-- `HeuristicToolParser.flush()`: strip control tokens; in
PARSING_PARAMETERS, salvage a final parameter without its closing tag,
emit the in-progress tool call, and reset to TEXT with an empty buffer;
in any other state return no tools — the (stripped) buffer is left in
place. -/
def hpFlush (p : HParser) : HParser × List HToolCall :=
  let buf := stripControlTokens p.buffer
  match p.state with
  | .parsingParameters =>
    let params :=
      match flushParamSearch buf with
      | some (key, v) => aupdate p.currentParameters (trimBoth key) (trimBoth v)
      | none => p.currentParameters
    ({ p with state := .text, buffer := [], currentParameters := params },
     [⟨p.currentToolId, p.currentFunctionName, params⟩])
  | _ => ({ p with buffer := buf }, [])

/-- The fresh parser (`HeuristicToolParser.__init__`). -/
def hpInit : HParser := ⟨.text, [], 0, [], [], 0⟩

/-- The concrete string of C3. -/
def c3String : List Char := "● <function=T><parameter=k>v</parameter>".data

/-- One split position of C3: feed `s[:i]`, then `s[i:]`, then flush;
check that exactly one tool named `T` with input `{k: "v"}` was emitted
across the three calls. -/
def c3Check (i : ℕ) : Bool :=
  let r1 := hpFeed hpInit (c3String.take i)
  let r2 := hpFeed r1.1 (c3String.drop i)
  let r3 := hpFlush r2.1
  match r1.2.2 ++ r2.2.2 ++ r3.2 with
  | [t] => t.name == "T".data && t.input == [("k".data, "v".data)]
  | _ => false

/-! ### C2: ThinkTagParser (src/providers/nvidia_nim/utils/think_parser.py) -/

inductive ContentType
  | TEXT
  | THINKING
deriving DecidableEq

def OPEN_TAG : List Char := "<think>".data

def CLOSE_TAG : List Char := "</think>".data

def occAt (pat s : List Char) (q : ℕ) : Prop := pat <+: s.drop q

def noBorder (pat : List Char) : Prop :=
  ∀ k, 0 < k → k < pat.length → pat.drop k ≠ pat.take (pat.length - k)

/-- Emitting a chunk with possibly-empty content: a nonempty chunk is
yielded by `feed` and the loop continues; an empty candidate is not
yielded and the parse continues directly (the `if pre_think:` /
`if thinking_content:` / `if pre_orphan:` guards). -/
def emitCons (c : ContentType × List Char)
    (r : List (ContentType × List Char) × List Char × Bool) :
    List (ContentType × List Char) × List Char × Bool :=
  if c.2 = [] then r else (c :: r.1, r.2)

/-- The drive loop of `ThinkTagParser.feed` combined with
`_parse_outside_think` / `_parse_inside_think`: from mode `m`
(the `_in_think_tag` flag) with buffer `buf`, repeatedly parse and
collect the yielded chunks until the parser returns `None` (withholding
a potential partial tag, or exhausting the buffer).  Returns the chunk
list together with the final buffer and mode. -/
def runThink : Bool → List Char → List (ContentType × List Char) × List Char × Bool
  | false, buf =>
    match h1 : findSub CLOSE_TAG buf, h2 : findSub OPEN_TAG buf with
    | some oc, none =>
      emitCons (ContentType.TEXT, buf.take oc) (runThink false (buf.drop (oc + 8)))
    | some oc, some ts =>
      if oc < ts then
        emitCons (ContentType.TEXT, buf.take oc) (runThink false (buf.drop (oc + 8)))
      else
        emitCons (ContentType.TEXT, buf.take ts) (runThink true (buf.drop (ts + 7)))
    | none, some ts =>
      emitCons (ContentType.TEXT, buf.take ts) (runThink true (buf.drop (ts + 7)))
    | none, none =>
      match h3 : rfindSub ['<'] buf with
      | some lb =>
        if ((buf.drop lb).length < 7 ∧ buf.drop lb <+: OPEN_TAG) ∨
            ((buf.drop lb).length < 8 ∧ buf.drop lb <+: CLOSE_TAG) then
          if h4 : buf.take lb = [] then ([], buf, false)
          else
            let r := runThink false (buf.drop lb)
            ((ContentType.TEXT, buf.take lb) :: r.1, r.2)
        else if buf = [] then ([], [], false)
        else ([(ContentType.TEXT, buf)], [], false)
      | none =>
        if buf = [] then ([], [], false)
        else ([(ContentType.TEXT, buf)], [], false)
  | true, buf =>
    match h5 : findSub CLOSE_TAG buf with
    | some te =>
      emitCons (ContentType.THINKING, buf.take te) (runThink false (buf.drop (te + 8)))
    | none =>
      match h6 : rfindSub ['<'] buf with
      | some lb =>
        if buf.length - lb < 8 ∧ buf.drop lb <+: CLOSE_TAG then
          if h7 : buf.take lb = [] then ([], buf, true)
          else
            let r := runThink true (buf.drop lb)
            ((ContentType.THINKING, buf.take lb) :: r.1, r.2)
        else if buf = [] then ([], [], true)
        else ([(ContentType.THINKING, buf)], [], true)
      | none =>
        if buf = [] then ([], [], true)
        else ([(ContentType.THINKING, buf)], [], true)
termination_by _ buf => buf.length
decreasing_by
all_goals simp only [List.length_drop]
· have hb : buf ≠ [] := by
    intro h
    rw [h, show findSub CLOSE_TAG [] = none from rfl] at h1
    exact Option.noConfusion h1
  have := List.length_pos.mpr hb
  omega
· have hb : buf ≠ [] := by
    intro h
    rw [h, show findSub CLOSE_TAG [] = none from rfl] at h1
    exact Option.noConfusion h1
  have := List.length_pos.mpr hb
  omega
· have hb : buf ≠ [] := by
    intro h
    rw [h, show findSub OPEN_TAG [] = none from rfl] at h2
    exact Option.noConfusion h2
  have := List.length_pos.mpr hb
  omega
· have hb : buf ≠ [] := by
    intro h
    rw [h, show findSub OPEN_TAG [] = none from rfl] at h2
    exact Option.noConfusion h2
  have := List.length_pos.mpr hb
  omega
· have h0 : lb ≠ 0 ∧ buf ≠ [] := by
    constructor <;> intro h <;> apply h4 <;> simp [h]
  have := List.length_pos.mpr h0.2
  omega
· have hb : buf ≠ [] := by
    intro h
    rw [h, show findSub CLOSE_TAG [] = none from rfl] at h5
    exact Option.noConfusion h5
  have := List.length_pos.mpr hb
  omega
· have h0 : lb ≠ 0 ∧ buf ≠ [] := by
    constructor <;> intro h <;> apply h7 <;> simp [h]
  have := List.length_pos.mpr h0.2
  omega

/-- The parser state: `_buffer` and `_in_think_tag`. -/
structure ThinkTagParser where
  buffer : List Char
  inThinkTag : Bool

/-- The fresh parser (`ThinkTagParser.__init__`). -/
def tpInit : ThinkTagParser := ⟨[], false⟩

/-- Feeding content (`ThinkTagParser.feed`): append to the buffer, then run the
parse loop; returns the yielded chunks and the new state. -/
def tpFeed (p : ThinkTagParser) (content : List Char) :
    List (ContentType × List Char) × ThinkTagParser :=
  let r := runThink p.inThinkTag (p.buffer ++ content)
  (r.1, ⟨r.2.1, r.2.2⟩)

/-- Flushing (`ThinkTagParser.flush`): emit the remaining buffer (if nonempty)
typed by the current mode; the buffer is cleared. -/
def tpFlush (p : ThinkTagParser) : List (ContentType × List Char) :=
  if p.buffer = [] then []
  else [((if p.inThinkTag then ContentType.THINKING else ContentType.TEXT), p.buffer)]

/-- Feeding a list of chunks in order, collecting all yields. -/
def tpFeedMany : ThinkTagParser → List (List Char) →
    List (ContentType × List Char) × ThinkTagParser
  | p, [] => ([], p)
  | p, c :: cs =>
    let r := tpFeed p c
    let r2 := tpFeedMany r.2 cs
    (r.1 ++ r2.1, r2.2)

/-- An input with properly matched think tags: leading text, then a
list of `(thinking inner, following text)` spans.  `renderDoc` lays the
tags back down. -/
structure ThinkDoc where
  lead : List Char
  spans : List (List Char × List Char)

def renderSpans (spans : List (List Char × List Char)) : List Char :=
  spans.flatMap (fun sp => OPEN_TAG ++ sp.1 ++ CLOSE_TAG ++ sp.2)

def renderDoc (d : ThinkDoc) : List Char := d.lead ++ renderSpans d.spans

/-- A fragment holding no (complete) `<think>` or `</think>`. -/
def NoTags (s : List Char) : Prop :=
  findSub OPEN_TAG s = none ∧ findSub CLOSE_TAG s = none

instance (s : List Char) : Decidable (NoTags s) := by
  unfold NoTags; infer_instance

/-- Well-formedness of a `ThinkDoc`: no fragment contains a tag. -/
def docOK (d : ThinkDoc) : Prop :=
  NoTags d.lead ∧ ∀ sp ∈ d.spans, NoTags sp.1 ∧ NoTags sp.2

instance (d : ThinkDoc) : Decidable (docOK d) := by
  unfold docOK; infer_instance

/-- Each character of `s` tagged with content type `ty`. -/
def taggedOf (ty : ContentType) (s : List Char) : List (ContentType × Char) :=
  s.map (fun c => (ty, c))

/-- A chunk list flattened to a typed character stream (chunk
boundaries forgotten, order and typing kept). -/
def flattenOut (outs : List (ContentType × List Char)) : List (ContentType × Char) :=
  outs.flatMap (fun o => taggedOf o.1 o.2)

/-- The intended typed stream of a document: lead text, then each span
as THINKING inner followed by TEXT trailer. -/
def refStream (d : ThinkDoc) : List (ContentType × Char) :=
  taggedOf ContentType.TEXT d.lead ++
    d.spans.flatMap (fun sp =>
      taggedOf ContentType.THINKING sp.1 ++ taggedOf ContentType.TEXT sp.2)

/-- The document's bytes with the tag bytes removed. -/
def stripTags (d : ThinkDoc) : List Char :=
  d.lead ++ d.spans.flatMap (fun sp => sp.1 ++ sp.2)

/-- Concatenation of the contents of all chunks of one type, in emit
order. -/
def concatOf (ty : ContentType) (outs : List (ContentType × List Char)) : List Char :=
  (outs.filter (fun o => decide (o.1 = ty))).flatMap (fun o => o.2)

def pendFlat (b : List Char) (m : Bool) : List (ContentType × Char) :=
  taggedOf (if m then ContentType.THINKING else ContentType.TEXT) b

end Spec2Proof

namespace Spec2Proof

theorem countP_mono_of_imp {α : Type} (l : List α) (p q : α → Bool)
    (h : ∀ x ∈ l, p x = true → q x = true) : l.countP p ≤ l.countP q := by
  induction l with
  | nil => simp
  | cons a t ih =>
    rw [List.countP_cons, List.countP_cons]
    have ht : t.countP p ≤ t.countP q := ih (fun x hx => h x (List.mem_cons_of_mem a hx))
    by_cases hp : p a = true
    · have hq := h a (List.mem_cons_self a t) hp
      rw [hp, hq]
      omega
    · rw [Bool.of_not_eq_true hp]
      simp only [Bool.false_eq_true, if_false, Nat.add_zero]
      split <;> omega

theorem admissible_windowCount {N : ℕ} {W : ℚ} {gs : List ℚ}
    (h : Admissible N W gs) : ∀ t, windowCount W t gs ≤ N := by
  induction h with
  | nil => intro t; simp [windowCount]
  | snoc gs g hcount hle hadm ih =>
    intro t
    unfold windowCount at *
    rw [List.countP_append, List.countP_singleton]
    by_cases hg : t < g ∧ g ≤ t + W
    · have hmono : gs.countP (fun x => decide (t < x ∧ x ≤ t + W)) ≤
          gs.countP (fun x => decide (g - W < x)) := by
        apply countP_mono_of_imp
        intro x _ hx
        simp only [decide_eq_true_eq] at hx ⊢
        have : g - W ≤ t := by linarith [hg.2]
        linarith [hx.1]
      have hlt : gs.countP (fun x => decide (t < x ∧ x ≤ t + W)) < N :=
        lt_of_le_of_lt hmono hcount
      rw [decide_eq_true hg]
      simp only [if_true]
      omega
    · rw [decide_eq_false hg]
      simp only [Bool.false_eq_true, if_false, Nat.add_zero]
      exact ih t

theorem pruneTimes_eq_dropWhile (cutoff : ℚ) (l : List ℚ) :
    pruneTimes cutoff l = l.dropWhile (fun t => decide (t ≤ cutoff)) := by
  induction l with
  | nil => rfl
  | cons a t ih =>
    by_cases h : a ≤ cutoff
    · simp [pruneTimes, h, List.dropWhile_cons, ih]
    · simp [pruneTimes, h, List.dropWhile_cons]

theorem pruneTimes_eq_filter (cutoff : ℚ) (l : List ℚ)
    (hs : l.Pairwise (· ≤ ·)) :
    pruneTimes cutoff l = l.filter (fun t => decide (cutoff < t)) := by
  induction l with
  | nil => rfl
  | cons a t ih =>
    rw [List.pairwise_cons] at hs
    by_cases h : a ≤ cutoff
    · have hfa : t.filter (fun x => decide (cutoff < x)) =
          (a :: t).filter (fun x => decide (cutoff < x)) := by
        rw [List.filter_cons]
        simp [not_lt.mpr h]
      rw [pruneTimes, if_pos h, ih hs.2, hfa]
    · have hca : cutoff < a := not_le.mp h
      have hft : t.filter (fun x => decide (cutoff < x)) = t := by
        apply List.filter_eq_self.mpr
        intro x hx
        simp only [decide_eq_true_eq]
        exact lt_of_lt_of_le hca (hs.1 x hx)
      rw [pruneTimes, if_neg h, List.filter_cons]
      simp [hca, hft]

theorem slidingAcquireRun_grants_sublist (N : ℕ) (W : ℚ) (times attempts : List ℚ) :
    (slidingAcquireRun N W times attempts).2.Sublist attempts := by
  induction attempts generalizing times with
  | nil => simp [slidingAcquireRun]
  | cons now rest ih =>
    unfold slidingAcquireRun
    cases h : slidingAcquireStep N W times now with
    | some times' => simpa using List.Sublist.cons₂ now (ih times')
    | none => exact List.Sublist.cons now (ih times)

theorem slidingAcquireRun_admissible (N : ℕ) (W : ℚ) (attempts : List ℚ) :
    ∀ (H dropped times : List ℚ),
    H = dropped ++ times →
    (∀ x ∈ dropped, ∀ a ∈ attempts, x ≤ a - W) →
    H.Pairwise (· ≤ ·) →
    (∀ x ∈ H, ∀ a ∈ attempts, x ≤ a) →
    attempts.Pairwise (· ≤ ·) →
    Admissible N W H →
    Admissible N W (H ++ (slidingAcquireRun N W times attempts).2) := by
  induction attempts with
  | nil => intro H dropped times _ _ _ _ _ hadm; simpa [slidingAcquireRun] using hadm
  | cons now rest ih =>
    intro H dropped times hsplit hdrop hHs hHle hatts hadm
    have hrest : rest.Pairwise (· ≤ ·) := (List.pairwise_cons.mp hatts).2
    have hnowrest : ∀ a ∈ rest, now ≤ a := (List.pairwise_cons.mp hatts).1
    have htimesPW : times.Pairwise (· ≤ ·) := by
      have := hsplit ▸ hHs
      exact (List.pairwise_append.mp this).2.1
    have hprune : pruneTimes (now - W) times =
        times.filter (fun t => decide (now - W < t)) :=
      pruneTimes_eq_filter _ _ htimesPW
    have hHfilter : H.filter (fun t => decide (now - W < t)) =
        pruneTimes (now - W) times := by
      rw [hsplit, List.filter_append, hprune]
      have : dropped.filter (fun t => decide (now - W < t)) = [] := by
        apply List.filter_eq_nil.mpr
        intro x hx
        simp only [decide_eq_true_eq, not_lt]
        exact hdrop x hx now (List.mem_cons_self _ _)
      rw [this, List.nil_append]
    unfold slidingAcquireRun slidingAcquireStep
    simp only
    by_cases hlen : (pruneTimes (now - W) times).length < N
    · simp only [hlen, if_true]
      -- granted: history extends by `now`
      have hcount : H.countP (fun x => decide (now - W < x)) < N := by
        rw [List.countP_eq_length_filter, hHfilter]; exact hlen
      have hHlenow : ∀ x ∈ H, x ≤ now := fun x hx => hHle x hx now (List.mem_cons_self _ _)
      have hadm' : Admissible N W (H ++ [now]) := .snoc H now hcount hHlenow hadm
      have hsplitTimes : times = times.takeWhile (fun t => decide (t ≤ now - W)) ++
          pruneTimes (now - W) times := by
        rw [pruneTimes_eq_dropWhile]
        exact (List.takeWhile_append_dropWhile _ _).symm
      have hkey := ih (H ++ [now])
        (dropped ++ times.takeWhile (fun t => decide (t ≤ now - W)))
        (pruneTimes (now - W) times ++ [now])
        (by rw [hsplit]; conv_lhs => rw [hsplitTimes]
            simp [List.append_assoc])
        (by intro x hx a ha
            rcases List.mem_append.mp hx with hx | hx
            · exact le_trans (hdrop x hx now (List.mem_cons_self _ _))
                (by have := hnowrest a ha; linarith)
            · have : x ≤ now - W := by
                have := List.mem_takeWhile_imp hx
                simpa using this
              have := hnowrest a ha
              linarith)
        (by rw [List.pairwise_append]
            refine ⟨hHs, List.pairwise_singleton _ _, ?_⟩
            intro x hx y hy
            rw [List.mem_singleton] at hy
            subst hy
            exact hHlenow x hx)
        (by intro x hx a ha
            rcases List.mem_append.mp hx with hx | hx
            · exact hHle x hx a (List.mem_cons_of_mem _ ha)
            · rw [List.mem_singleton] at hx; subst hx; exact hnowrest a ha)
        hrest hadm'
      rw [List.append_assoc] at hkey
      simpa using hkey
    · simp only [hlen, if_false]
      -- denied: state unchanged, retry later
      exact ih H dropped times hsplit
        (fun x hx a ha => hdrop x hx a (List.mem_cons_of_mem _ ha))
        hHs
        (fun x hx a ha => hHle x hx a (List.mem_cons_of_mem _ ha))
        hrest hadm

theorem proactiveSlotRun_eq (N : ℕ) (W : ℚ) (times attempts : List ℚ) :
    proactiveSlotRun N W times attempts = slidingAcquireRun N W times attempts := by
  induction attempts generalizing times with
  | nil => rfl
  | cons now rest ih =>
    unfold proactiveSlotRun slidingAcquireRun
    have hstep : proactiveSlotStep N W times now = slidingAcquireStep N W times now := rfl
    rw [hstep]
    cases slidingAcquireStep N W times now with
    | some times' => simp [ih]
    | none => exact ih times

/-- C1: For every limiter configured with `rate_limit = N > 0` and
`rate_window = W > 0` and every monotone sequence of `acquire` attempt
times, the granted timestamps (each grant records the monotonic `now` at
which it was admitted, being a subsequence of the attempt times) contain
at most `N` elements in any window `(t, t + W]` of length `W` — for both
`SlidingWindowLimiter.acquire` and
`GlobalRateLimiter._acquire_proactive_slot`. -/
theorem C1_sliding_window_rate_bound (N : ℕ) (W : ℚ) (attempts : List ℚ)
    (hN : 0 < N) (hW : 0 < W) (hmono : attempts.Pairwise (· ≤ ·)) :
    (∀ t, windowCount W t (slidingAcquireRun N W [] attempts).2 ≤ N) ∧
    (slidingAcquireRun N W [] attempts).2.Sublist attempts ∧
    (∀ t, windowCount W t (proactiveSlotRun N W [] attempts).2 ≤ N) ∧
    (proactiveSlotRun N W [] attempts).2.Sublist attempts := by
  have hadm : Admissible N W ([] ++ (slidingAcquireRun N W [] attempts).2) :=
    slidingAcquireRun_admissible N W attempts [] [] [] rfl
      (by intro x hx; cases hx) (by simp) (by intro x hx; cases hx) hmono .nil
  rw [List.nil_append] at hadm
  refine ⟨admissible_windowCount hadm, slidingAcquireRun_grants_sublist N W [] attempts, ?_, ?_⟩
  · rw [proactiveSlotRun_eq]; exact admissible_windowCount hadm
  · rw [proactiveSlotRun_eq]; exact slidingAcquireRun_grants_sublist N W [] attempts

/-- Witness for C1 at `N = 1`, `W = 1`, attempts `[0, 1/2, 2]`. -/
theorem C1_witness :
    0 < 1 ∧ (0:ℚ) < 1 ∧
    windowCount 1 0 (slidingAcquireRun 1 1 [] [0, 1/2, 2]).2 ≤ 1 := by
  refine ⟨Nat.zero_lt_one, one_pos, ?_⟩
  exact (C1_sliding_window_rate_bound 1 1 [0, 1/2, 2] Nat.zero_lt_one one_pos
    (by norm_num)).1 0

theorem mapLookup_mapSet_self {F Wt : Type} (m : List (String × F × List Wt))
    (key : String) (v : F × List Wt) : mapLookup (mapSet m key v) key = some v := by
  induction m with
  | nil => simp [mapSet, mapLookup]
  | cons kv rest ih =>
    obtain ⟨k, w⟩ := kv
    by_cases hk : k = key
    · simp [mapSet, hk, mapLookup]
    · simp [mapSet, hk, mapLookup, ih]

theorem mapLookup_mapSet_ne {F Wt : Type} (m : List (String × F × List Wt))
    (key k' : String) (v : F × List Wt) (h : k' ≠ key) :
    mapLookup (mapSet m key v) k' = mapLookup m k' := by
  induction m with
  | nil =>
    simp only [mapSet, mapLookup]
    rw [if_neg (Ne.symm h)]
  | cons kv rest ih =>
    obtain ⟨k, w⟩ := kv
    by_cases hk : k = key
    · subst hk
      simp only [mapSet, if_pos rfl, mapLookup]
      rw [if_neg (Ne.symm h), if_neg (Ne.symm h)]
    · simp only [mapSet, if_neg hk, mapLookup]
      rw [ih]

/-- C5: Enqueueing on an already-pending dedup key replaces only the stored
callable and appends the new waiter: the FIFO list is unchanged, the key's
entry becomes the new callable with the extended waiter list, every other
map entry is untouched, and when the worker executes the key every
accumulated waiter receives the outcome of the last stored callable. -/
theorem C5_compaction_frame {F Wt V E : Type} (st : MsgLimiterState F Wt)
    (dedupKey : String) (origFunc newFunc : F) (origWaiters : List Wt) (newWaiter : Wt)
    (hpend : mapLookup st.queueMap dedupKey = some (origFunc, origWaiters)) :
    (enqueueInternal newFunc newWaiter dedupKey st).queueList = st.queueList ∧
    mapLookup (enqueueInternal newFunc newWaiter dedupKey st).queueMap dedupKey =
      some (newFunc, origWaiters ++ [newWaiter]) ∧
    (∀ k, k ≠ dedupKey →
      mapLookup (enqueueInternal newFunc newWaiter dedupKey st).queueMap k =
        mapLookup st.queueMap k) ∧
    (∀ (run : F → Outcome V E) (rest : List String), st.queueList = dedupKey :: rest →
      workerStep run (enqueueInternal newFunc newWaiter dedupKey st) =
        some ({ queueList := rest,
                queueMap := mapRemove
                  (enqueueInternal newFunc newWaiter dedupKey st).queueMap dedupKey },
              (origWaiters ++ [newWaiter]).map (fun w => (w, run newFunc)))) := by
  have hstep : enqueueInternal newFunc newWaiter dedupKey st =
      { st with queueMap := mapSet st.queueMap dedupKey (newFunc, origWaiters ++ [newWaiter]) } := by
    unfold enqueueInternal enqueueInternalMulti
    rw [hpend]
  refine ⟨by rw [hstep], ?_, ?_, ?_⟩
  · rw [hstep]
    exact mapLookup_mapSet_self _ _ _
  · intro k hk
    rw [hstep]
    exact mapLookup_mapSet_ne _ _ _ _ hk
  · intro run rest hfront
    unfold workerStep
    rw [hstep]
    simp only [hfront]
    rw [mapLookup_mapSet_self]

/-- Witness for C5 on a concrete two-key state. -/
theorem C5_witness :
    mapLookup (⟨["k", "j"], [("k", (5, [1])), ("j", (7, [2]))]⟩ :
        MsgLimiterState ℕ ℕ).queueMap "k" = some (5, [1]) ∧
    (enqueueInternal 6 3 "k"
      (⟨["k", "j"], [("k", (5, [1])), ("j", (7, [2]))]⟩ :
        MsgLimiterState ℕ ℕ)).queueList = ["k", "j"] ∧
    workerStep (fun f => Outcome.ok (f + 1) : ℕ → Outcome ℕ ℕ)
      (enqueueInternal 6 3 "k"
        (⟨["k", "j"], [("k", (5, [1])), ("j", (7, [2]))]⟩ : MsgLimiterState ℕ ℕ)) =
      some (⟨["j"], [("j", (7, [2]))]⟩, [(1, Outcome.ok 7), (3, Outcome.ok 7)]) := by
  have h := C5_compaction_frame (V := ℕ) (E := ℕ)
    (⟨["k", "j"], [("k", (5, [1])), ("j", (7, [2]))]⟩ : MsgLimiterState ℕ ℕ)
    "k" 5 6 [1] 3 (by rfl)
  refine ⟨by rfl, h.1, ?_⟩
  have hw := h.2.2.2 (fun f => Outcome.ok (f + 1)) ["j"] (by rfl)
  rw [hw]
  rfl

theorem markPendingList_eq_map (msg : String) (cs : List MNode) :
    markPendingList msg cs = cs.map (markPending msg) := by
  induction cs with
  | nil => rfl
  | cons c rest ih => rw [markPendingList, ih, List.map_cons]

theorem markPending_getPath (msg : String) (p : List ℕ) :
    ∀ (c : MNode),
    (((c.state = .pending : Bool) && pendingChain c p) = true →
      ((markPending msg c).getPath p).map MNode.state = some .error ∧
      ((markPending msg c).getPath p).map MNode.errorMessage =
        some (some ("Parent failed: " ++ msg))) ∧
    (((c.state = .pending : Bool) && pendingChain c p) = false →
      ((markPending msg c).getPath p).map MNode.state = (c.getPath p).map MNode.state ∧
      ((markPending msg c).getPath p).map MNode.errorMessage =
        (c.getPath p).map MNode.errorMessage) ∧
    ((markPending msg c).getPath p).map MNode.nodeId = (c.getPath p).map MNode.nodeId := by
  induction p with
  | nil =>
    intro c
    obtain ⟨i, st, em, cs⟩ := c
    by_cases hst : st = .pending
    · subst hst
      constructor
      · intro _
        simp [markPending, MNode.getPath, MNode.state, MNode.errorMessage]
      · constructor
        · intro hfalse
          simp [MNode.state, pendingChain] at hfalse
        · simp [markPending, MNode.getPath, MNode.nodeId]
    · constructor
      · intro htrue
        simp [MNode.state, hst] at htrue
      · constructor
        · intro _
          simp [markPending, MNode.state, hst, MNode.getPath]
        · simp [markPending, MNode.state, hst, MNode.getPath]
  | cons j p' ih =>
    intro c
    obtain ⟨i, st, em, cs⟩ := c
    by_cases hst : st = .pending
    · subst hst
      have hmp : markPending msg (.node i .pending em cs) =
          .node i .error (some ("Parent failed: " ++ msg)) (markPendingList msg cs) := by
        simp [markPending]
      rw [hmp]
      cases hget : cs[j]? with
      | none =>
        have hget' : (markPendingList msg cs)[j]? = none := by
          rw [markPendingList_eq_map, List.getElem?_map, hget]
          rfl
        constructor
        · intro htrue
          simp [pendingChain, MNode.state, hget] at htrue
        · refine ⟨fun _ => ?_, ?_⟩ <;> simp [MNode.getPath, hget, hget']
      | some cj =>
        have hget' : (markPendingList msg cs)[j]? = some (markPending msg cj) := by
          rw [markPendingList_eq_map, List.getElem?_map, hget]
          rfl
        have hchain : pendingChain (.node i .pending em cs) (j :: p') =
            ((cj.state = .pending : Bool) && pendingChain cj p') := by
          simp [pendingChain, hget]
        have hpaths : (MNode.node i .error (some ("Parent failed: " ++ msg))
            (markPendingList msg cs)).getPath (j :: p') = (markPending msg cj).getPath p' := by
          simp [MNode.getPath, hget']
        have hpathc : (MNode.node i .pending em cs).getPath (j :: p') = cj.getPath p' := by
          simp [MNode.getPath, hget]
        rw [hpaths, hpathc, hchain]
        have hself : ((MNode.node i .pending em cs).state = .pending : Bool) = true := by
          simp [MNode.state]
        constructor
        · intro htrue
          rw [hself, Bool.true_and] at htrue
          exact (ih cj).1 htrue
        · refine ⟨fun hfalse => ?_, ((ih cj).2.2)⟩
          rw [hself, Bool.true_and] at hfalse
          exact ((ih cj).2.1) hfalse
    · have hmp : markPending msg (.node i st em cs) = .node i st em cs := by
        simp [markPending, hst]
      rw [hmp]
      constructor
      · intro htrue
        simp [MNode.state, hst] at htrue
      · exact ⟨fun _ => ⟨rfl, rfl⟩, rfl⟩

theorem pendingDescendants_eq (c : MNode) :
    pendingDescendants c = pendingDescList c.children := by
  obtain ⟨i, st, em, cs⟩ := c
  rw [pendingDescendants, MNode.children]

theorem mem_pendingDescList_iff (cs : List MNode) (c : MNode) :
    c ∈ pendingDescList cs ↔
      ∃ (j : ℕ) (cj : MNode), cs[j]? = some cj ∧ cj.state = .pending ∧
        (c = cj ∨ c ∈ pendingDescList cj.children) := by
  induction cs with
  | nil =>
    simp only [pendingDescList, List.not_mem_nil, false_iff, not_exists]
    intro j cj h
    simp at h
  | cons c0 rest ih =>
    rw [pendingDescList, List.mem_append]
    constructor
    · intro hmem
      rcases hmem with hmem | hmem
      · by_cases h0 : c0.state = .pending
        · rw [if_pos h0, List.mem_cons] at hmem
          rcases hmem with heq | hmem
          · exact ⟨0, c0, List.getElem?_cons_zero, h0, Or.inl heq⟩
          · exact ⟨0, c0, List.getElem?_cons_zero, h0,
              Or.inr (pendingDescendants_eq c0 ▸ hmem)⟩
        · rw [if_neg h0] at hmem
          cases hmem
      · obtain ⟨j, cj, hj, hpend', hor⟩ := ih.mp hmem
        exact ⟨j + 1, cj, by simpa using hj, hpend', hor⟩
    · rintro ⟨j, cj, hj, hpend', hor⟩
      cases j with
      | zero =>
        rw [List.getElem?_cons_zero, Option.some_inj] at hj
        subst hj
        left
        rw [if_pos hpend']
        rcases hor with rfl | hmem
        · exact List.mem_cons_self _ _
        · exact List.mem_cons_of_mem _ ((pendingDescendants_eq c0).symm ▸ hmem)
      | succ j' =>
        rw [List.getElem?_cons_succ] at hj
        exact Or.inr (ih.mpr ⟨j', cj, hj, hpend', hor⟩)

theorem mem_pendingDesc_path (n : MNode) (x : String) :
    x ∈ (pendingDescList n.children).map MNode.nodeId ↔
      ∃ p, p ≠ [] ∧ pendingChain n p = true ∧ (n.getPath p).map MNode.nodeId = some x := by
  obtain ⟨i, st, em, cs⟩ := n
  rw [MNode.children]
  constructor
  · intro hx
    rw [List.mem_map] at hx
    obtain ⟨c, hc, hcx⟩ := hx
    obtain ⟨j, cj, hj, hpend', hor⟩ := (mem_pendingDescList_iff cs c).mp hc
    rcases hor with rfl | hmem
    · refine ⟨[j], by simp, ?_, ?_⟩
      · simp [pendingChain, hj, hpend']
      · simp [MNode.getPath, hj, hcx]
    · have hsz : sizeOf cj < sizeOf (MNode.node i st em cs) := by
        have hm : cj ∈ cs := List.get?_mem (by rw [List.get?_eq_getElem?]; exact hj)
        have := List.sizeOf_lt_of_mem hm
        simp only [MNode.node.sizeOf_spec]
        omega
      have hrec := (mem_pendingDesc_path cj x).mp
        (List.mem_map.mpr ⟨c, hmem, hcx⟩)
      obtain ⟨p', hp', hchain', hpath'⟩ := hrec
      refine ⟨j :: p', by simp, ?_, ?_⟩
      · simp [pendingChain, hj, hpend', hchain']
      · simpa [MNode.getPath, hj] using hpath'
  · rintro ⟨p, hp, hchain, hpath⟩
    cases p with
    | nil => exact absurd rfl hp
    | cons j p' =>
      rw [pendingChain] at hchain
      cases hj : cs[j]? with
      | none => rw [hj] at hchain; cases hchain
      | some cj =>
        rw [hj, Bool.and_eq_true, decide_eq_true_eq] at hchain
        have hpath' : (cj.getPath p').map MNode.nodeId = some x := by
          simpa [MNode.getPath, hj] using hpath
        cases p' with
        | nil =>
          rw [MNode.getPath, Option.map_some'] at hpath'
          rw [Option.some_inj] at hpath'
          refine List.mem_map.mpr ⟨cj, ?_, hpath'⟩
          exact (mem_pendingDescList_iff cs cj).mpr ⟨j, cj, hj, hchain.1, Or.inl rfl⟩
        | cons j' p'' =>
          have hsz : sizeOf cj < sizeOf (MNode.node i st em cs) := by
            have hm : cj ∈ cs := List.get?_mem (by rw [List.get?_eq_getElem?]; exact hj)
            have := List.sizeOf_lt_of_mem hm
            simp only [MNode.node.sizeOf_spec]
            omega
          have hrec := (mem_pendingDesc_path cj x).mpr
            ⟨j' :: p'', by simp, hchain.2, hpath'⟩
          rw [List.mem_map] at hrec ⊢
          obtain ⟨c, hc, hcx⟩ := hrec
          exact ⟨c, (mem_pendingDescList_iff cs c).mpr
            ⟨j, cj, hj, hchain.1, Or.inr hc⟩, hcx⟩
termination_by sizeOf n
decreasing_by
  all_goals simp_wf
  all_goals simp only [MNode.node.sizeOf_spec] at hsz
  all_goals omega

/-- C6 (amended): `mark_node_error(n, msg, propagate=True)` sets the target
to ERROR; its message becomes `msg` when `msg` is nonempty and is left
unchanged when `msg` is empty (`update_state` assigns `error_message`
only under an `if error_message:` truthiness guard); a descendant is set
to ERROR with message `"Parent failed: <msg>"` exactly when it is
reachable from the target through a chain of PENDING nodes; every other
node (in particular every COMPLETED or IN_PROGRESS descendant, and every
pending descendant hidden behind a non-pending intermediate node) keeps
its state and message; node ids everywhere are untouched; and the
returned list holds exactly the target followed by the pending
descendants collected by `get_pending_children`. -/
theorem C6_mark_node_error_pending_chains (n : MNode) (msg : String) :
    (markNodeError n msg).1.nodeId = n.nodeId ∧
    (markNodeError n msg).1.state = .error ∧
    (markNodeError n msg).1.errorMessage =
      (if msg = "" then n.errorMessage else some msg) ∧
    (∀ p, ((markNodeError n msg).1.getPath p).map MNode.nodeId =
      (n.getPath p).map MNode.nodeId) ∧
    (∀ p, p ≠ [] → pendingChain n p = true →
      ((markNodeError n msg).1.getPath p).map MNode.state = some .error ∧
      ((markNodeError n msg).1.getPath p).map MNode.errorMessage =
        some (some ("Parent failed: " ++ msg))) ∧
    (∀ p, p ≠ [] → pendingChain n p = false →
      ((markNodeError n msg).1.getPath p).map MNode.state = (n.getPath p).map MNode.state ∧
      ((markNodeError n msg).1.getPath p).map MNode.errorMessage =
        (n.getPath p).map MNode.errorMessage) ∧
    (markNodeError n msg).2 = n.nodeId :: (pendingDescList n.children).map MNode.nodeId ∧
    (∀ x, x ∈ (markNodeError n msg).2 ↔
      x = n.nodeId ∨ ∃ p, p ≠ [] ∧ pendingChain n p = true ∧
        (n.getPath p).map MNode.nodeId = some x) := by
  obtain ⟨i, st, em, cs⟩ := n
  have hme : markNodeError (.node i st em cs) msg =
      (.node i .error (if msg = "" then em else some msg) (markPendingList msg cs),
       i :: (pendingDescList cs).map MNode.nodeId) := rfl
  have hpathstep : ∀ (j : ℕ) (p' : List ℕ),
      (MNode.node i .error (if msg = "" then em else some msg)
          (markPendingList msg cs)).getPath (j :: p') =
        ((cs[j]?.map (markPending msg)).bind (fun c => c.getPath p')) := by
    intro j p'
    rw [MNode.getPath]
    rw [markPendingList_eq_map, List.getElem?_map]
    cases cs[j]? with
    | none => rfl
    | some cj => rfl
  refine ⟨by rw [hme, MNode.nodeId, MNode.nodeId],
          by rw [hme, MNode.state],
          by rw [hme]; simp only [MNode.errorMessage], ?_, ?_, ?_,
          by rw [hme, MNode.nodeId, MNode.children], ?_⟩
  · intro p
    cases p with
    | nil => rw [hme]; rfl
    | cons j p' =>
      rw [hme, hpathstep]
      cases hj : cs[j]? with
      | none => rw [MNode.getPath, hj]; rfl
      | some cj =>
        rw [MNode.getPath, hj]
        simp only [Option.map_some', Option.bind_some]
        exact (markPending_getPath msg p' cj).2.2
  · intro p hp hchain
    cases p with
    | nil => exact absurd rfl hp
    | cons j p' =>
      rw [pendingChain] at hchain
      cases hj : cs[j]? with
      | none => rw [hj] at hchain; cases hchain
      | some cj =>
        rw [hj] at hchain
        rw [hme, hpathstep, hj]
        simp only [Option.map_some', Option.bind_some]
        exact (markPending_getPath msg p' cj).1 hchain
  · intro p hp hchain
    cases p with
    | nil => exact absurd rfl hp
    | cons j p' =>
      rw [pendingChain] at hchain
      cases hj : cs[j]? with
      | none =>
        rw [hme, hpathstep, hj, MNode.getPath, hj]
        exact ⟨rfl, rfl⟩
      | some cj =>
        rw [hj] at hchain
        rw [hme, hpathstep, hj, MNode.getPath, hj]
        simp only [Option.map_some', Option.bind_some]
        exact (markPending_getPath msg p' cj).2.1 hchain
  · intro x
    rw [hme]
    simp only [List.mem_cons]
    constructor
    · rintro (rfl | hx)
      · exact Or.inl rfl
      · exact Or.inr ((mem_pendingDesc_path (.node i st em cs) x).mp
          (by rwa [MNode.children]))
    · rintro (rfl | hx)
      · exact Or.inl rfl
      · right
        have := (mem_pendingDesc_path (.node i st em cs) x).mpr hx
        rwa [MNode.children] at this

/-- C6 counterexample: in `c6Tree` the grandchild `g` (path `[0, 0]`) is a
PENDING descendant of the target, but after
`mark_node_error(target, "boom", propagate=True)` it is still PENDING (its
parent is COMPLETED, and `get_pending_children` does not look through
non-pending children), contradicting the claim that every PENDING
descendant is set to ERROR regardless of intermediate states. -/
theorem C6_counterexample :
    (c6Tree.getPath [0, 0]).map MNode.state = some .pending ∧
    ((markNodeError c6Tree "boom").1.getPath [0, 0]).map MNode.state = some .pending ∧
    ((markNodeError c6Tree "boom").1.getPath [0, 0]).map MNode.state ≠ some .error := by
  have h1 : (c6Tree.getPath [0, 0]).map MNode.state = some .pending := by
    simp [c6Tree, MNode.getPath, MNode.state]
  have h2 : ((markNodeError c6Tree "boom").1.getPath [0, 0]).map MNode.state =
      some .pending := by
    have hmp : markNodeError c6Tree "boom" =
        (.node "n" .error (some "boom")
          (markPendingList "boom"
            [.node "c" .completed none [.node "g" .pending none []]]),
         "n" :: (pendingDescList
            [.node "c" .completed none [.node "g" .pending none []]]).map MNode.nodeId) := rfl
    rw [hmp]
    rw [markPendingList]
    rw [markPendingList]
    have hc : markPending "boom" (.node "c" .completed none [.node "g" .pending none []]) =
        .node "c" .completed none [.node "g" .pending none []] := by
      rw [markPending]
      simp
    rw [hc]
    simp [MNode.getPath, MNode.state]
  exact ⟨h1, h2, by rw [h2]; simp⟩

/-- Witness for C6 on `w6Tree`: the path `[0]` is a pending chain and the
child is marked ERROR. -/
theorem C6_witness :
    (([0] : List ℕ) ≠ [] ∧ pendingChain w6Tree [0] = true) ∧
    ((markNodeError w6Tree "m").1.getPath [0]).map MNode.state = some .error := by
  have hchain : pendingChain w6Tree [0] = true := by
    simp [w6Tree, pendingChain, MNode.state]
  exact ⟨⟨by simp, hchain⟩,
    ((C6_mark_node_error_pending_chains w6Tree "m").2.2.2.2.1 [0] (by simp) hchain).1⟩

/-- C7 counterexample: two `record_message_id` calls with fresh ids (well
inside any 0.5 s window — the code has no debounce timer at all) perform
two disk writes, not one. -/
theorem C7_counterexample :
    (recordMessageIdSeq emptySessionStore
      [("tg", "1", "100", "in", "user", "t0"), ("tg", "1", "101", "in", "user", "t1")]
      none).2 = 2 ∧ (2 : ℕ) ≠ 1 := by
  constructor
  · rfl
  · decide

/-- C7 (amended): `SessionStore` persistence is synchronous, not debounced:
`record_message_id` performs exactly one disk write (`_save`) when the
message id is new for the chat and none when it is a duplicate, and the
new record is appended to the in-memory log before the write; there is no
debounce timer and no `flush_pending_save` method in
`src/messaging/session.py`. -/
theorem C7_synchronous_writes (st : SessionStoreState)
    (platform chatId messageId direction kind ts : String) (cap : Option ℕ) :
    (messageId ∈ (alistLookup st.messageLogIds (makeChatKey platform chatId)).getD [] →
      recordMessageId st platform chatId messageId direction kind ts cap = (st, 0)) ∧
    (messageId ∉ (alistLookup st.messageLogIds (makeChatKey platform chatId)).getD [] →
      (recordMessageId st platform chatId messageId direction kind ts cap).2 = 1) ∧
    (messageId ∉ (alistLookup st.messageLogIds (makeChatKey platform chatId)).getD [] →
      cap = none →
      (recordMessageId st platform chatId messageId direction kind ts cap).1.messageLog =
        alistSet st.messageLog (makeChatKey platform chatId)
          ((alistLookup st.messageLog (makeChatKey platform chatId)).getD [] ++
            [⟨messageId, ts, direction, kind⟩])) := by
  refine ⟨fun hmem => ?_, fun hmem => ?_, fun hmem hcap => ?_⟩
  · simp only [recordMessageId]
    rw [if_pos hmem]
  · simp only [recordMessageId]
    rw [if_neg hmem]
  · subst hcap
    simp only [recordMessageId]
    rw [if_neg hmem]

/-- Witness for C7 on an empty store. -/
theorem C7_witness :
    ("100" ∉ ((alistLookup emptySessionStore.messageLogIds (makeChatKey "tg" "1")).getD
        ([] : List String))) ∧
    (recordMessageId emptySessionStore "tg" "1" "100" "in" "user" "t0" none).2 = 1 := by
  refine ⟨by decide, ?_⟩
  exact (C7_synchronous_writes emptySessionStore "tg" "1" "100" "in" "user" "t0" none).2.1
    (by decide)

/-- C10 counterexample: a sessions section whose second record is missing
`created_at` makes `_load` raise mid-loop; the exception is caught, but
the store keeps the first record — it does not fall back to an empty
store. -/
theorem C10_counterexample :
    (loadSessionsFold emptySessionStore [("s1", c10Good), ("s2", c10Bad)]).2 = true ∧
    (loadStore c10Input).sessions =
      [("s1", ⟨.str "s1", "7", "10", "11", .str "telegram",
        .str "2024-01-01", .str "2024-01-02"⟩)] ∧
    (loadStore c10Input).sessions ≠ [] := by
  refine ⟨rfl, rfl, ?_⟩
  intro h
  cases h

theorem loadSessionsFold_stopsEarly (l : List (String × RecordData)) :
    ∀ st : SessionStoreState,
    (loadSessionsFold st l).1 =
      (loadSessionsFold st (l.takeWhile isOkRecordEntry)).1 ∧
    (loadSessionsFold st l).2 = !l.all isOkRecordEntry := by
  induction l with
  | nil => intro st; exact ⟨rfl, rfl⟩
  | cons e rest ih =>
    intro st
    obtain ⟨sid, rd⟩ := e
    cases hb : buildRecord rd with
    | error msg =>
      have hok : isOkRecordEntry (sid, rd) = false := by
        simp [isOkRecordEntry, hb]
      constructor
      · rw [loadSessionsFold, hb]
        rw [List.takeWhile_cons, hok]
        rfl
      · rw [loadSessionsFold, hb]
        rw [List.all_cons, hok]
        rfl
    | ok rec =>
      have hok : isOkRecordEntry (sid, rd) = true := by
        simp [isOkRecordEntry, hb]
      constructor
      · rw [loadSessionsFold, hb, List.takeWhile_cons, hok]
        simp only [if_true]
        rw [loadSessionsFold, hb]
        exact (ih _).1
      · rw [loadSessionsFold, hb, List.all_cons, hok, Bool.true_and]
        exact (ih _).2

/-- C10 (amended): session-store persistence never raises.  Construction
is a total function of the disk contents: a missing or unparseable file
yields the empty store; a parseable file whose sessions section has a bad
record yields the store holding exactly the entries loaded before the
failing one (and nothing else, the exception also skipping the later
sections).  A failed `_save` during `record_message_id` is caught inside
`_save`: the call returns normally and the in-memory result is the same
as with a successful write.  (The on-disk bytes after a failed write are
not specified: `_save` truncates the file before `json.dump`.) -/
theorem C10_load_save_best_effort :
    loadStore .noFile = emptySessionStore ∧
    loadStore .badJson = emptySessionStore ∧
    (∀ (sessionEntries : List (String × RecordData)) treeEntries nodeToTree messageLog,
      (loadSessionsFold emptySessionStore sessionEntries).2 = true →
      loadStore (.parsed sessionEntries treeEntries nodeToTree messageLog) =
        (loadSessionsFold emptySessionStore
          (sessionEntries.takeWhile isOkRecordEntry)).1) ∧
    (∀ (writeOk : Bool) (st : SessionStoreState)
        (platform chatId messageId direction kind ts : String) (cap : Option ℕ),
      (recordMessageIdOp writeOk st platform chatId messageId direction kind ts cap).1 =
        (recordMessageId st platform chatId messageId direction kind ts cap).1) ∧
    (∀ (writeOk : Bool) (st : SessionStoreState)
        (platform chatId messageId direction kind ts : String) (cap : Option ℕ),
      (recordMessageIdOp writeOk st platform chatId messageId direction kind ts cap).2.1 =
        .ok ()) := by
  refine ⟨rfl, rfl, ?_, ?_, ?_⟩
  · intro sessionEntries treeEntries nodeToTree messageLog herr
    rw [loadStore]
    simp only [herr, if_true]
    exact (loadSessionsFold_stopsEarly sessionEntries emptySessionStore).1
  · intro writeOk st platform chatId messageId direction kind ts cap
    rfl
  · intro writeOk st platform chatId messageId direction kind ts cap
    simp only [recordMessageIdOp, saveOutcome]
    split <;> rfl

/-- Witness for C10 on the concrete counterexample input. -/
theorem C10_witness :
    ((loadSessionsFold emptySessionStore [("s1", c10Good), ("s2", c10Bad)]).2 = true) ∧
    loadStore c10Input =
      (loadSessionsFold emptySessionStore
        ([("s1", c10Good), ("s2", c10Bad)].takeWhile isOkRecordEntry)).1 := by
  refine ⟨rfl, ?_⟩
  exact (C10_load_save_best_effort.2.2.1 [("s1", c10Good), ("s2", c10Bad)]
    [("t", "x")] [("n", "t")] [] rfl)

theorem convertUserMessageAux_run (l : List UserBlock) :
    ∀ parts : List String,
    convertUserMessageAux l parts =
      flushTextMsgs (parts ++ (l.takeWhile isTextBlock).map textOf) ++
        convertUserMessageAux (l.dropWhile isTextBlock) [] := by
  induction l with
  | nil =>
    intro parts
    simp [convertUserMessageAux, flushTextMsgs]
  | cons b rest ih =>
    intro parts
    cases b with
    | text s =>
      rw [convertUserMessageAux, ih (parts ++ [s])]
      have ht : (UserBlock.text s :: rest).takeWhile isTextBlock =
          .text s :: rest.takeWhile isTextBlock := by
        rw [List.takeWhile_cons]
        rfl
      have hd : (UserBlock.text s :: rest).dropWhile isTextBlock =
          rest.dropWhile isTextBlock := by
        rw [List.dropWhile_cons]
        rfl
      rw [ht, hd, List.map_cons]
      rw [List.append_assoc]
      rfl
    | toolResult tid c =>
      rw [convertUserMessageAux]
      have ht : (UserBlock.toolResult tid c :: rest).takeWhile isTextBlock = [] := by
        rw [List.takeWhile_cons]
        rfl
      have hd : (UserBlock.toolResult tid c :: rest).dropWhile isTextBlock =
          .toolResult tid c :: rest := by
        rw [List.dropWhile_cons]
        rfl
      rw [ht, hd, List.map_nil, List.append_nil, convertUserMessageAux]
      have : flushTextMsgs [] = ([] : List OpenAIMsg) := rfl
      rw [this, List.nil_append]

/-- C8 (amended): `_convert_user_message` preserves block order: each
`tool_result` becomes its own `{role: tool}` message in place, and each
maximal run of text blocks becomes one `{role: user}` message with the
texts joined by newline.  In particular the tool messages all precede the
batched user text exactly when the `tool_result` blocks all precede the
text blocks in the input. -/
theorem C8_order_preserving (blocks : List UserBlock) :
    convertUserMessage blocks = refConvertUser blocks ∧
    (∀ (toolResults : List (String × String)) (texts : List String),
      blocks = toolResults.map (fun t => UserBlock.toolResult t.1 t.2) ++
        texts.map UserBlock.text →
      convertUserMessage blocks =
        toolResults.map (fun t => OpenAIMsg.tool t.1 t.2) ++ flushTextMsgs texts) := by
  constructor
  · have main : ∀ (n : ℕ) (bs : List UserBlock), bs.length = n →
        convertUserMessage bs = refConvertUser bs := by
      intro n
      induction n using Nat.strong_induction_on with
      | _ n ihn =>
        intro bs hn
        cases bs with
        | nil =>
          rw [convertUserMessage, convertUserMessageAux, refConvertUser]
          rfl
        | cons b rest =>
          cases b with
          | toolResult tid c =>
            rw [refConvertUser]
            rw [convertUserMessage, convertUserMessageAux]
            have hf : flushTextMsgs [] = ([] : List OpenAIMsg) := rfl
            rw [hf, List.nil_append]
            have hr := ihn rest.length (by rw [← hn]; simp) rest rfl
            rw [convertUserMessage] at hr
            rw [hr]
          | text s =>
            rw [refConvertUser]
            rw [convertUserMessage, convertUserMessageAux, convertUserMessageAux_run]
            simp only [List.nil_append]
            have hlen : (rest.dropWhile isTextBlock).length < n := by
              rw [← hn, List.length_cons]
              exact Nat.lt_succ_of_le (List.dropWhile_suffix _).length_le
            have hr := ihn (rest.dropWhile isTextBlock).length hlen
              (rest.dropWhile isTextBlock) rfl
            rw [convertUserMessage] at hr
            rw [hr]
            have hflush : flushTextMsgs ([s] ++ (rest.takeWhile isTextBlock).map textOf) =
                [.user (String.intercalate "\n"
                  (s :: (rest.takeWhile isTextBlock).map textOf))] := by
              rw [flushTextMsgs, if_neg (by simp)]
              rfl
            rw [hflush]
            rfl
    exact main blocks.length blocks rfl
  · intro toolResults texts hshape
    subst hshape
    rw [convertUserMessage]
    induction toolResults with
    | nil =>
      simp only [List.map_nil, List.nil_append]
      rw [convertUserMessageAux_run]
      have ht : (texts.map UserBlock.text).takeWhile isTextBlock = texts.map .text := by
        apply List.takeWhile_eq_self_iff.mpr
        intro b hb
        rw [List.mem_map] at hb
        obtain ⟨t, _, rfl⟩ := hb
        rfl
      have hd : (texts.map UserBlock.text).dropWhile isTextBlock = [] := by
        apply List.dropWhile_eq_nil_iff.mpr
        intro b hb
        rw [List.mem_map] at hb
        obtain ⟨t, _, rfl⟩ := hb
        rfl
      rw [ht, hd, List.nil_append, List.map_map]
      have : textOf ∘ UserBlock.text = id := by
        funext t
        rfl
      rw [this, List.map_id]
      simp [convertUserMessageAux, flushTextMsgs]
    | cons t trs ih =>
      simp only [List.map_cons, List.cons_append]
      rw [convertUserMessageAux]
      have : flushTextMsgs [] = ([] : List OpenAIMsg) := rfl
      rw [this, List.nil_append, ih]

/-- C8 counterexample: for the content `[text "a", tool_result]` the tool
message is emitted *after* the user message — the converter preserves the
input order instead of emitting tool results first. -/
theorem C8_counterexample :
    convertUserMessage [.text "a", .toolResult "id1" "r"] =
      [.user "a", .tool "id1" "r"] ∧
    convertUserMessage [.text "a", .toolResult "id1" "r"] ≠
      [.tool "id1" "r", .user "a"] := by
  constructor
  · rfl
  · decide

/-- Witness for C8 with tool results first. -/
theorem C8_witness :
    convertUserMessage [.toolResult "t1" "r1", .text "x"] =
      [.tool "t1" "r1", .user "x"] := by
  have h := (C8_order_preserving [.toolResult "t1" "r1", .text "x"]).2
    [("t1", "r1")] ["x"] (by rfl)
  rw [h]
  rfl

theorem lookupField_setField (l : List (String × JVal)) (key : String) (v : JVal) :
    lookupField (setField l key v) key = some v := by
  induction l with
  | nil => simp [setField, lookupField]
  | cons kv rest ih =>
    obtain ⟨k, w⟩ := kv
    by_cases hk : k = key
    · simp [setField, hk, lookupField]
    · simp [setField, hk, lookupField, ih]

/-- C4: On every emission path, a `tool_use` block named `Task` whose final
input is a JSON object carries `run_in_background = false`, regardless of
the upstream-provided value or its absence: the heuristic mid-stream path,
the heuristic flush path, and the native tool_calls path (where the
buffered `Task` arguments are rewritten as soon as they parse; an
unparseable buffer flushed at EOF is not an object). -/
theorem C4_task_run_in_background_false :
    (∀ (blockIdx : ℕ) (tu : ToolUseBlock) (fields : List (String × JVal)),
      tu.name = "Task" →
      (emitDetectedToolStream blockIdx tu).inputJson = .obj fields →
      lookupField fields "run_in_background" = some (.jbool false)) ∧
    (∀ (blockIdx : ℕ) (tu : ToolUseBlock) (fields : List (String × JVal)),
      tu.name = "Task" →
      (emitDetectedToolFlush blockIdx tu).inputJson = .obj fields →
      lookupField fields "run_in_background" = some (.jbool false)) ∧
    (∀ (parseJsonObj : String → Option (List (String × JVal)))
        (tb : TaskArgBuffer) (frag : String) (fields : List (String × JVal)),
      (bufferTaskArgs parseJsonObj tb frag).2 = some fields →
      lookupField fields "run_in_background" = some (.jbool false)) := by
  have hover : ∀ (name : String) (input : JVal) (fields : List (String × JVal)),
      name = "Task" → taskOverride name input = .obj fields →
      lookupField fields "run_in_background" = some (.jbool false) := by
    intro name input fields hname hov
    subst hname
    cases input with
    | obj f0 =>
      rw [taskOverride, if_pos rfl] at hov
      cases hov
      exact lookupField_setField f0 _ _
    | str s => cases hov
    | jbool b => cases hov
    | num n => cases hov
  refine ⟨?_, ?_, ?_⟩
  · intro blockIdx tu fields hname hinput
    exact hover tu.name tu.input fields hname hinput
  · intro blockIdx tu fields hname hinput
    exact hover tu.name tu.input fields hname hinput
  · intro parseJsonObj tb frag fields hout
    rw [bufferTaskArgs] at hout
    by_cases hem : tb.emitted
    · rw [if_pos hem] at hout
      cases hout
    · rw [if_neg hem] at hout
      simp only at hout
      cases hp : parseJsonObj (tb.buffer ++ frag) with
      | none => rw [hp] at hout; cases hout
      | some f0 =>
        rw [hp] at hout
        simp only [Option.some_inj] at hout
        subst hout
        exact lookupField_setField f0 _ _

/-- C3: for `s = "● <function=T><parameter=k>v</parameter>"` and every
split position `i ∈ [0, |s|]`, `feed(s[:i])`, `feed(s[i:])`, `flush()`
emit — across the three calls — exactly one detected tool call, named
`"T"` with input `{k: "v"}`. -/
theorem C3_split_invariance :
    (List.range (c3String.length + 1)).all c3Check = true := by
  decide

/-- C9 counterexample: feeding `"x<|a"` leaves the incomplete control
token `"<|a"` buffered in TEXT state; `flush()` returns no tools and does
NOT discard the buffer, and a later `feed("b")` emits the previously
buffered text as filtered output (`"<|ab"`). -/
theorem C9_counterexample :
    (hpFeed hpInit "x<|a".data).2.1 = "x".data ∧
    (hpFeed hpInit "x<|a".data).1.buffer = "<|a".data ∧
    (hpFeed hpInit "x<|a".data).1.state = .text ∧
    (hpFlush (hpFeed hpInit "x<|a".data).1).2 = [] ∧
    (hpFlush (hpFeed hpInit "x<|a".data).1).1.buffer = "<|a".data ∧
    (hpFeed (hpFlush (hpFeed hpInit "x<|a".data).1).1 "b".data).2.1 = "<|ab".data := by
  decide

/-- C9 (amended): after any feed history leaving the parser in TEXT or
MATCHING_FUNCTION state, `flush()` returns no tool calls and emits no
filtered text, but the internal buffer is retained (only control-token
stripping is applied to it), not discarded; a later `feed` call can emit
it as filtered text. -/
theorem C9_flush_retains_buffer (p : HParser)
    (h : p.state = .text ∨ p.state = .matchingFunction) :
    hpFlush p = ({ p with buffer := stripControlTokens p.buffer }, []) := by
  obtain ⟨st, buf, tid, fn, params, nid⟩ := p
  cases st with
  | text => rfl
  | matchingFunction => rfl
  | parsingParameters => rcases h with h | h <;> simp [HParser.state] at h

/-- Witness for C9 on a concrete TEXT-state parser. -/
theorem C9_witness :
    ((⟨.text, "<|a".data, 0, [], [], 0⟩ : HParser).state = .text ∨
     (⟨.text, "<|a".data, 0, [], [], 0⟩ : HParser).state = .matchingFunction) ∧
    hpFlush ⟨.text, "<|a".data, 0, [], [], 0⟩ =
      (⟨.text, "<|a".data, 0, [], [], 0⟩, []) := by
  refine ⟨Or.inl rfl, ?_⟩
  have h := C9_flush_retains_buffer ⟨.text, "<|a".data, 0, [], [], 0⟩ (Or.inl rfl)
  rw [h]
  decide

/-- Witness for C4: a `Task` tool whose upstream input sets
`run_in_background = true` is emitted with it forced to `false`. -/
theorem C4_witness :
    (⟨"toolu_1", "Task", .obj [("run_in_background", .jbool true)]⟩ :
      ToolUseBlock).name = "Task" ∧
    (emitDetectedToolStream 0
      ⟨"toolu_1", "Task", .obj [("run_in_background", .jbool true)]⟩).inputJson =
      .obj [("run_in_background", .jbool false)] ∧
    lookupField [("run_in_background", JVal.jbool false)] "run_in_background" =
      some (.jbool false) := by
  refine ⟨rfl, rfl, ?_⟩
  exact C4_task_run_in_background_false.1 0
    ⟨"toolu_1", "Task", .obj [("run_in_background", .jbool true)]⟩
    [("run_in_background", .jbool false)] rfl rfl

theorem occAt_cons_succ (pat : List Char) (a : Char) (t : List Char) (q : ℕ) :
    occAt pat (a :: t) (q + 1) ↔ occAt pat t q := Iff.rfl

theorem findSub_none_iff (pat s : List Char) :
    findSub pat s = none ↔ ∀ q, ¬ occAt pat s q := by
  induction s with
  | nil =>
    rw [findSub]
    constructor
    · intro h q hq
      by_cases hp : pat.isPrefixOf [] = true
      · rw [if_pos hp] at h; exact Option.noConfusion h
      · have : ¬ (pat <+: List.drop q []) := by
          simpa [List.drop_nil, List.isPrefixOf_iff_prefix] using hp
        exact this hq
    · intro h
      rw [if_neg]
      intro hp
      exact h 0 (by simpa [occAt, List.isPrefixOf_iff_prefix] using hp)
  | cons a t ih =>
    rw [findSub]
    by_cases hp : pat.isPrefixOf (a :: t) = true
    · rw [if_pos hp]
      constructor
      · intro h; exact Option.noConfusion h
      · intro h
        exact absurd (by simpa [occAt, List.isPrefixOf_iff_prefix] using hp) (h 0)
    · rw [if_neg hp]
      constructor
      · intro h q
        cases q with
        | zero =>
          intro hq
          exact hp (by simpa [occAt, List.isPrefixOf_iff_prefix] using hq)
        | succ q =>
          rw [occAt_cons_succ]
          have ht : findSub pat t = none := by
            cases hft : findSub pat t with
            | none => rfl
            | some v => rw [hft] at h; exact Option.noConfusion h
          exact (ih.mp ht) q
      · intro h
        have ht : findSub pat t = none := ih.mpr (fun q => by
          have := h (q + 1)
          rwa [occAt_cons_succ] at this)
        rw [ht]; rfl

theorem findSub_some_iff (pat s : List Char) (p : ℕ) :
    findSub pat s = some p ↔ (occAt pat s p ∧ ∀ q, q < p → ¬ occAt pat s q) := by
  induction s generalizing p with
  | nil =>
    rw [findSub]
    by_cases hp : pat.isPrefixOf [] = true
    · rw [if_pos hp]
      constructor
      · rintro h
        injection h with h
        subst h
        exact ⟨by simpa [occAt, List.isPrefixOf_iff_prefix] using hp, by omega⟩
      · rintro ⟨h1, h2⟩
        rcases Nat.eq_zero_or_pos p with rfl | hpos
        · rfl
        · exact absurd (show occAt pat [] 0 by simpa [occAt] using h1) (h2 0 hpos)
    · rw [if_neg hp]
      constructor
      · intro h; exact Option.noConfusion h
      · rintro ⟨h1, _⟩
        exact absurd (by simpa [occAt, List.isPrefixOf_iff_prefix] using h1 : pat <+: []) (by
          intro hc
          exact hp (by simpa [List.isPrefixOf_iff_prefix] using (by simpa [occAt] using h1 : pat <+: ([] : List Char))))
  | cons a t ih =>
    rw [findSub]
    by_cases hp : pat.isPrefixOf (a :: t) = true
    · rw [if_pos hp]
      constructor
      · intro h
        injection h with h
        subst h
        exact ⟨by simpa [occAt, List.isPrefixOf_iff_prefix] using hp, by omega⟩
      · rintro ⟨h1, h2⟩
        cases p with
        | zero => rfl
        | succ p =>
          exact absurd (by simpa [occAt, List.isPrefixOf_iff_prefix] using hp) (h2 0 (Nat.succ_pos p))
    · rw [if_neg hp]
      constructor
      · intro h
        cases hft : findSub pat t with
        | none => rw [hft] at h; exact Option.noConfusion h
        | some v =>
          rw [hft] at h
          simp only [Option.map_some'] at h
          injection h with h
          subst h
          rcases (ih v).mp hft with ⟨h1, h2⟩
          refine ⟨by rwa [occAt_cons_succ], ?_⟩
          intro q hq
          cases q with
          | zero =>
            intro hc
            exact hp (by simpa [occAt, List.isPrefixOf_iff_prefix] using hc)
          | succ q =>
            rw [occAt_cons_succ]
            exact h2 q (by omega)
      · rintro ⟨h1, h2⟩
        cases p with
        | zero =>
          exact absurd (by simpa [occAt, List.isPrefixOf_iff_prefix] using h1) hp
        | succ p =>
          have : findSub pat t = some p := (ih p).mpr
            ⟨by rwa [occAt_cons_succ] at h1, fun q hq => by
              have := h2 (q + 1) (by omega)
              rwa [occAt_cons_succ] at this⟩
          rw [this]; rfl

theorem occAt_length {pat s : List Char} {q : ℕ} (h : occAt pat s q)
    (hne : pat ≠ []) : q + pat.length ≤ s.length := by
  have h1 : pat.length ≤ (s.drop q).length := h.length_le
  rw [List.length_drop] at h1
  have h2 : 0 < pat.length := List.length_pos.mpr hne
  omega

theorem prefix_of_append_left {pat x w : List Char} (h : pat <+: x ++ w)
    (hl : pat.length ≤ x.length) : pat <+: x := by
  rw [List.prefix_iff_eq_take] at h ⊢
  rwa [List.take_append_of_le_length hl] at h

theorem prefix_split {pat x w : List Char} (h : pat <+: x ++ w)
    (hl : x.length ≤ pat.length) :
    x = pat.take x.length ∧ pat.drop x.length <+: w := by
  rw [List.prefix_iff_eq_take, List.take_append_eq_append_take,
    List.take_of_length_le hl] at h
  constructor
  · rw [h, List.take_left]
  · rw [h, List.drop_left]
    exact List.take_prefix _ _

theorem occAt_append_left {pat a b : List Char} {q : ℕ}
    (hl : q + pat.length ≤ a.length) :
    occAt pat (a ++ b) q ↔ occAt pat a q := by
  unfold occAt
  rw [List.drop_append_of_le_length (by omega)]
  constructor
  · intro h
    exact prefix_of_append_left h (by rw [List.length_drop]; omega)
  · intro h
    exact h.trans (List.prefix_append _ _)

theorem occAt_append_right (pat a b : List Char) (q : ℕ) :
    occAt pat (a ++ b) (a.length + q) ↔ occAt pat b q := by
  unfold occAt
  rw [← List.drop_drop, List.drop_left]

theorem findSub_append_of_some {pat a t : List Char} {p : ℕ} (hne : pat ≠ [])
    (h : findSub pat a = some p) : findSub pat (a ++ t) = some p := by
  rcases (findSub_some_iff pat a p).mp h with ⟨h1, h2⟩
  have hlen := occAt_length h1 hne
  rw [findSub_some_iff]
  refine ⟨?_, ?_⟩
  · rw [occAt_append_left hlen]; exact h1
  · intro q hq hocc
    have : q + pat.length ≤ a.length := by omega
    rw [occAt_append_left this] at hocc
    exact h2 q hq hocc

theorem findSub_append_of_none {pat a t : List Char} {q : ℕ}
    (h : findSub pat a = none) (hocc : occAt pat (a ++ t) q) :
    a.length < q + pat.length := by
  by_contra hc
  push_neg at hc
  rw [occAt_append_left hc] at hocc
  exact (findSub_none_iff pat a).mp h q hocc

theorem findSub_append_shift {pat a b : List Char}
    (h : ∀ q, q < a.length → ¬ occAt pat (a ++ b) q) :
    findSub pat (a ++ b) = (findSub pat b).map (· + a.length) := by
  cases hb : findSub pat b with
  | none =>
    rw [Option.map_none']
    rw [findSub_none_iff]
    intro q hocc
    by_cases hq : q < a.length
    · exact h q hq hocc
    · push_neg at hq
      have hq2 : q = a.length + (q - a.length) := by omega
      rw [hq2, occAt_append_right] at hocc
      exact (findSub_none_iff pat b).mp hb _ hocc
  | some p =>
    rw [Option.map_some']
    rcases (findSub_some_iff pat b p).mp hb with ⟨h1, h2⟩
    rw [findSub_some_iff]
    constructor
    · rw [Nat.add_comm, occAt_append_right]; exact h1
    · intro q hq hocc
      by_cases hqa : q < a.length
      · exact h q hqa hocc
      · push_neg at hqa
        have hq2 : q = a.length + (q - a.length) := by omega
        rw [hq2, occAt_append_right] at hocc
        exact h2 _ (by omega) hocc

theorem no_occ_straddle {pat s w : List Char} (hs : ∀ q, ¬ occAt pat s q)
    (hstr : ∀ k, 0 < k → k < pat.length → s.drop (s.length - k) = pat.take k →
      ¬ (pat.drop k <+: w)) :
    ∀ q, q < s.length → ¬ occAt pat (s ++ w) q := by
  intro q hq hocc
  unfold occAt at hocc
  rw [List.drop_append_of_le_length (by omega)] at hocc
  by_cases hcase : q + pat.length ≤ s.length
  · have : pat <+: s.drop q :=
      prefix_of_append_left hocc (by rw [List.length_drop]; omega)
    exact hs q this
  · push_neg at hcase
    have hxl : (s.drop q).length ≤ pat.length := by rw [List.length_drop]; omega
    rcases prefix_split hocc hxl with ⟨h1, h2⟩
    rw [List.length_drop] at h1 h2
    refine hstr (s.length - q) (by omega) (by omega) ?_ h2
    have : s.length - (s.length - q) = q := by omega
    rw [this]
    exact h1

theorem findSub_boundary {pat s : List Char} (r : List Char)
    (hnb : noBorder pat) (hs : ∀ q, ¬ occAt pat s q) :
    findSub pat (s ++ (pat ++ r)) = some s.length := by
  rw [findSub_some_iff]
  constructor
  · unfold occAt
    rw [List.drop_left]
    exact List.prefix_append _ _
  · refine no_occ_straddle hs ?_
    intro k hk1 hk2 _ hpre
    have hlen : (pat.drop k).length ≤ pat.length := by
      rw [List.length_drop]; omega
    have := prefix_of_append_left hpre hlen
    rw [List.prefix_iff_eq_take, List.length_drop] at this
    exact hnb k hk1 hk2 this

theorem rfindSub_char_none_iff (c : Char) (s : List Char) :
    rfindSub [c] s = none ↔ c ∉ s := by
  induction s with
  | nil => simp [rfindSub]
  | cons a t ih =>
    rw [rfindSub]
    cases ht : rfindSub [c] t with
    | some i =>
      constructor
      · intro h; exact Option.noConfusion h
      · intro h
        have hct : c ∉ t := fun hm => h (List.mem_cons_of_mem a hm)
        rw [ih.mpr hct] at ht
        exact Option.noConfusion ht
    | none =>
      have hct : c ∉ t := ih.mp ht
      by_cases hca : ([c]).isPrefixOf (a :: t) = true
      · rw [if_pos hca]
        have : c = a := by
          rcases List.isPrefixOf_iff_prefix.mp hca with ⟨w, hw⟩
          have h0 := congrArg List.head? hw
          simpa using h0
        subst this
        simp
      · rw [if_neg hca]
        have : c ≠ a := by
          intro hc
          subst hc
          exact hca (List.isPrefixOf_iff_prefix.mpr ⟨t, rfl⟩)
        simp [List.mem_cons, this, hct]

theorem rfindSub_char_some (c : Char) (s : List Char) (l : ℕ)
    (h : rfindSub [c] s = some l) :
    s.drop l = c :: s.drop (l + 1) ∧ c ∉ s.drop (l + 1) := by
  induction s generalizing l with
  | nil => simp [rfindSub] at h
  | cons a t ih =>
    rw [rfindSub] at h
    cases ht : rfindSub [c] t with
    | some i =>
      rw [ht] at h
      injection h with h
      subst h
      rcases ih i ht with ⟨h1, h2⟩
      exact ⟨h1, h2⟩
    | none =>
      rw [ht] at h
      by_cases hca : ([c]).isPrefixOf (a :: t) = true
      · rw [if_pos hca] at h
        injection h with h
        subst h
        have hct : c ∉ t := (rfindSub_char_none_iff c t).mp ht
        have hceq : c = a := by
          rcases List.isPrefixOf_iff_prefix.mp hca with ⟨w, hw⟩
          have h0 := congrArg List.head? hw
          simpa using h0
        subst hceq
        exact ⟨rfl, hct⟩
      · rw [if_neg hca] at h
        exact Option.noConfusion h

theorem rfindSub_char_append_none (c : Char) (a b : List Char) (hb : c ∉ b) :
    rfindSub [c] (a ++ b) = rfindSub [c] a := by
  induction a with
  | nil =>
    simp only [List.nil_append]
    rw [(rfindSub_char_none_iff c b).mpr hb]
    simp [rfindSub, List.isPrefixOf]
  | cons x a' ih =>
    have hstep : (x :: a') ++ b = x :: (a' ++ b) := rfl
    rw [hstep, rfindSub, rfindSub, ih]
    have hpre : ∀ l : List Char, ([c].isPrefixOf (x :: l)) = (c == x) := by
      intro l; simp [List.isPrefixOf]
    cases h : rfindSub [c] a' with
    | some i => rfl
    | none => rw [hpre, hpre]

theorem rfindSub_char_append_some (c : Char) (a b : List Char) (i : ℕ)
    (h : rfindSub [c] b = some i) :
    rfindSub [c] (a ++ b) = some (a.length + i) := by
  induction a with
  | nil => simpa using h
  | cons x a' ih =>
    have hstep : (x :: a') ++ b = x :: (a' ++ b) := rfl
    rw [hstep, rfindSub, ih]
    show some (a'.length + i + 1) = some ((x :: a').length + i)
    have harith : a'.length + i + 1 = (x :: a').length + i := by
      simp [List.length_cons]; omega
    rw [harith]

theorem runThink_false_orphan (buf : List Char) (oc : ℕ)
    (hoc : findSub CLOSE_TAG buf = some oc)
    (horph : findSub OPEN_TAG buf = none ∨
      ∃ ts, findSub OPEN_TAG buf = some ts ∧ oc < ts) :
    runThink false buf =
      emitCons (ContentType.TEXT, buf.take oc) (runThink false (buf.drop (oc + 8))) := by
  rcases horph with hts | ⟨ts, hts, hlt⟩
  · rw [runThink]
    split <;> simp_all
  · rw [runThink]
    split <;> simp_all

theorem runThink_false_open (buf : List Char) (ts : ℕ)
    (hts : findSub OPEN_TAG buf = some ts)
    (hno : findSub CLOSE_TAG buf = none ∨
      ∃ oc, findSub CLOSE_TAG buf = some oc ∧ ¬ oc < ts) :
    runThink false buf =
      emitCons (ContentType.TEXT, buf.take ts) (runThink true (buf.drop (ts + 7))) := by
  rcases hno with hoc | ⟨oc, hoc, hge⟩
  · rw [runThink]
    split <;> simp_all
  · rw [runThink]
    split <;> simp_all

theorem runThink_false_withhold (buf : List Char) (lb : ℕ)
    (hoc : findSub CLOSE_TAG buf = none)
    (hts : findSub OPEN_TAG buf = none)
    (hlb : rfindSub ['<'] buf = some lb)
    (hcond : ((buf.drop lb).length < 7 ∧ buf.drop lb <+: OPEN_TAG) ∨
      ((buf.drop lb).length < 8 ∧ buf.drop lb <+: CLOSE_TAG)) :
    runThink false buf =
      if buf.take lb = [] then ([], buf, false)
      else ((ContentType.TEXT, buf.take lb) :: (runThink false (buf.drop lb)).1,
        (runThink false (buf.drop lb)).2) := by
  conv_lhs => rw [runThink]
  split <;> try simp_all
  split <;> simp_all [dite_eq_ite]

theorem runThink_false_emitall (buf : List Char)
    (hoc : findSub CLOSE_TAG buf = none)
    (hts : findSub OPEN_TAG buf = none)
    (hlb : rfindSub ['<'] buf = none ∨
      ∃ lb, rfindSub ['<'] buf = some lb ∧
        ¬ (((buf.drop lb).length < 7 ∧ buf.drop lb <+: OPEN_TAG) ∨
          ((buf.drop lb).length < 8 ∧ buf.drop lb <+: CLOSE_TAG))) :
    runThink false buf =
      if buf = [] then ([], [], false)
      else ([(ContentType.TEXT, buf)], [], false) := by
  rcases hlb with hlb | ⟨lb, hlb, hnc⟩
  · rw [runThink]
    split <;> try simp_all
    split <;> simp_all
  · rw [runThink]
    split <;> try simp_all
    split <;> simp_all

theorem runThink_true_close (buf : List Char) (te : ℕ)
    (hte : findSub CLOSE_TAG buf = some te) :
    runThink true buf =
      emitCons (ContentType.THINKING, buf.take te) (runThink false (buf.drop (te + 8))) := by
  conv_lhs => rw [runThink]
  split <;> simp_all

theorem runThink_true_withhold (buf : List Char) (lb : ℕ)
    (hte : findSub CLOSE_TAG buf = none)
    (hlb : rfindSub ['<'] buf = some lb)
    (hcond : buf.length - lb < 8 ∧ buf.drop lb <+: CLOSE_TAG) :
    runThink true buf =
      if buf.take lb = [] then ([], buf, true)
      else ((ContentType.THINKING, buf.take lb) :: (runThink true (buf.drop lb)).1,
        (runThink true (buf.drop lb)).2) := by
  conv_lhs => rw [runThink]
  split <;> try simp_all
  split <;> simp_all [dite_eq_ite]

theorem runThink_true_emitall (buf : List Char)
    (hte : findSub CLOSE_TAG buf = none)
    (hlb : rfindSub ['<'] buf = none ∨
      ∃ lb, rfindSub ['<'] buf = some lb ∧
        ¬ (buf.length - lb < 8 ∧ buf.drop lb <+: CLOSE_TAG)) :
    runThink true buf =
      if buf = [] then ([], [], true)
      else ([(ContentType.THINKING, buf)], [], true) := by
  rcases hlb with hlb | ⟨lb, hlb, hnc⟩
  · rw [runThink]
    split <;> try simp_all
    split <;> simp_all
  · rw [runThink]
    split <;> try simp_all
    split <;> simp_all

theorem runThink_nil (m : Bool) : runThink m [] = ([], [], m) := by
  cases m
  · rw [runThink_false_emitall [] rfl rfl (Or.inl rfl)]
    rfl
  · rw [runThink_true_emitall [] rfl (Or.inl rfl)]
    rfl

theorem emitCons_snd (c : ContentType × List Char)
    (r : List (ContentType × List Char) × List Char × Bool) :
    (emitCons c r).2 = r.2 := by
  unfold emitCons
  split <;> rfl

theorem taggedOf_append (ty : ContentType) (x y : List Char) :
    taggedOf ty (x ++ y) = taggedOf ty x ++ taggedOf ty y := by
  unfold taggedOf
  exact List.map_append _ x y

theorem flattenOut_cons (c : ContentType × List Char)
    (l : List (ContentType × List Char)) :
    flattenOut (c :: l) = taggedOf c.1 c.2 ++ flattenOut l := by
  unfold flattenOut
  rw [List.flatMap_cons]

theorem flattenOut_append (l1 l2 : List (ContentType × List Char)) :
    flattenOut (l1 ++ l2) = flattenOut l1 ++ flattenOut l2 := by
  unfold flattenOut
  rw [List.flatMap_append]

theorem flattenOut_emitCons (c : ContentType × List Char)
    (r : List (ContentType × List Char) × List Char × Bool) :
    flattenOut (emitCons c r).1 = taggedOf c.1 c.2 ++ flattenOut r.1 := by
  unfold emitCons
  split
  · rename_i h
    rw [h]
    simp [taggedOf]
  · rw [flattenOut_cons]

theorem occAt_drop_shift {pat a : List Char} {l q : ℕ}
    (h : occAt pat (a.drop l) q) : occAt pat a (l + q) := by
  unfold occAt at h ⊢
  rwa [← List.drop_drop]

theorem findSub_drop_none {pat a : List Char} {l : ℕ}
    (h : findSub pat a = none) : findSub pat (a.drop l) = none := by
  rw [findSub_none_iff] at h ⊢
  intro q hq
  exact h (l + q) (occAt_drop_shift hq)

theorem rfindSub_cons_head (c : Char) (r : List Char) (hr : c ∉ r) :
    rfindSub [c] (c :: r) = some 0 := by
  rw [rfindSub, (rfindSub_char_none_iff c r).mpr hr]
  show (if [c].isPrefixOf (c :: r) = true then some 0 else none) = some 0
  have hp : ([c].isPrefixOf (c :: r)) = true := List.isPrefixOf_iff_prefix.mpr ⟨r, rfl⟩
  rw [if_pos hp]

theorem runThink_stopped (m : Bool) (a : List Char) :
    runThink (runThink m a).2.2 (runThink m a).2.1 =
      ([], (runThink m a).2.1, (runThink m a).2.2) := by
  have main : ∀ (n : ℕ) (m : Bool) (a : List Char), a.length ≤ n →
      runThink (runThink m a).2.2 (runThink m a).2.1 =
        ([], (runThink m a).2.1, (runThink m a).2.2) := by
    intro n
    induction n using Nat.strong_induction_on with
    | _ n ih =>
      intro m a hlen
      have hlenpos : ∀ (p : List Char) (k : ℕ), a ≠ [] → 1 ≤ k →
          (a.drop k).length < n := by
        intro p k hne hk
        have := List.length_pos.mpr hne
        rw [List.length_drop]
        omega
      cases m with
      | false =>
        cases hoc : findSub CLOSE_TAG a with
        | some oc =>
          cases hts : findSub OPEN_TAG a with
          | none =>
            have hane : a ≠ [] := by
              intro h
              rw [h, show findSub CLOSE_TAG [] = none from rfl] at hoc
              exact Option.noConfusion hoc
            rw [runThink_false_orphan a oc hoc (Or.inl hts), emitCons_snd]
            exact ih _ (hlenpos a (oc + 8) hane (by omega)) false _ le_rfl
          | some ts =>
            have hane : a ≠ [] := by
              intro h
              rw [h, show findSub CLOSE_TAG [] = none from rfl] at hoc
              exact Option.noConfusion hoc
            by_cases hlt : oc < ts
            · rw [runThink_false_orphan a oc hoc (Or.inr ⟨ts, hts, hlt⟩), emitCons_snd]
              exact ih _ (hlenpos a (oc + 8) hane (by omega)) false _ le_rfl
            · rw [runThink_false_open a ts hts (Or.inr ⟨oc, hoc, hlt⟩), emitCons_snd]
              exact ih _ (hlenpos a (ts + 7) hane (by omega)) true _ le_rfl
        | none =>
          cases hts : findSub OPEN_TAG a with
          | some ts =>
            have hane : a ≠ [] := by
              intro h
              rw [h, show findSub OPEN_TAG [] = none from rfl] at hts
              exact Option.noConfusion hts
            rw [runThink_false_open a ts hts (Or.inl hoc), emitCons_snd]
            exact ih _ (hlenpos a (ts + 7) hane (by omega)) true _ le_rfl
          | none =>
            cases hlb : rfindSub ['<'] a with
            | some lb =>
              by_cases hcond : ((a.drop lb).length < 7 ∧ a.drop lb <+: OPEN_TAG) ∨
                  ((a.drop lb).length < 8 ∧ a.drop lb <+: CLOSE_TAG)
              · rw [runThink_false_withhold a lb hoc hts hlb hcond]
                by_cases hpre : a.take lb = []
                · rw [if_pos hpre]
                  show runThink false a = ([], a, false)
                  rw [runThink_false_withhold a lb hoc hts hlb hcond, if_pos hpre]
                · rw [if_neg hpre]
                  have hane : a ≠ [] := by
                    intro h
                    exact hpre (by rw [h, List.take_nil])
                  have hlb1 : 1 ≤ lb := by
                    rcases Nat.eq_zero_or_pos lb with rfl | h
                    · exact absurd (by rfl) hpre
                    · exact h
                  exact ih _ (hlenpos a lb hane hlb1) false _ le_rfl
              · rw [runThink_false_emitall a hoc hts (Or.inr ⟨lb, hlb, hcond⟩)]
                by_cases hne : a = []
                · rw [if_pos hne]
                  show runThink false [] = ([], [], false)
                  exact runThink_nil false
                · rw [if_neg hne]
                  show runThink false [] = ([], [], false)
                  exact runThink_nil false
            | none =>
              rw [runThink_false_emitall a hoc hts (Or.inl hlb)]
              by_cases hne : a = []
              · rw [if_pos hne]
                show runThink false [] = ([], [], false)
                exact runThink_nil false
              · rw [if_neg hne]
                show runThink false [] = ([], [], false)
                exact runThink_nil false
      | true =>
        cases hte : findSub CLOSE_TAG a with
        | some te =>
          have hane : a ≠ [] := by
            intro h
            rw [h, show findSub CLOSE_TAG [] = none from rfl] at hte
            exact Option.noConfusion hte
          rw [runThink_true_close a te hte, emitCons_snd]
          exact ih _ (hlenpos a (te + 8) hane (by omega)) false _ le_rfl
        | none =>
          cases hlb : rfindSub ['<'] a with
          | some lb =>
            by_cases hcond : a.length - lb < 8 ∧ a.drop lb <+: CLOSE_TAG
            · rw [runThink_true_withhold a lb hte hlb hcond]
              by_cases hpre : a.take lb = []
              · rw [if_pos hpre]
                show runThink true a = ([], a, true)
                rw [runThink_true_withhold a lb hte hlb hcond, if_pos hpre]
              · rw [if_neg hpre]
                have hane : a ≠ [] := by
                  intro h
                  exact hpre (by rw [h, List.take_nil])
                have hlb1 : 1 ≤ lb := by
                  rcases Nat.eq_zero_or_pos lb with rfl | h
                  · exact absurd (by rfl) hpre
                  · exact h
                exact ih _ (hlenpos a lb hane hlb1) true _ le_rfl
            · rw [runThink_true_emitall a hte (Or.inr ⟨lb, hlb, hcond⟩)]
              by_cases hne : a = []
              · rw [if_pos hne]
                show runThink true [] = ([], [], true)
                exact runThink_nil true
              · rw [if_neg hne]
                show runThink true [] = ([], [], true)
                exact runThink_nil true
          | none =>
            rw [runThink_true_emitall a hte (Or.inl hlb)]
            by_cases hne : a = []
            · rw [if_pos hne]
              show runThink true [] = ([], [], true)
              exact runThink_nil true
            · rw [if_neg hne]
              show runThink true [] = ([], [], true)
              exact runThink_nil true
  exact main a.length m a le_rfl

theorem take_shift (u v : List Char) (k : ℕ) :
    (u ++ v).take (k + u.length) = u ++ v.take k := by
  rw [List.take_append_eq_append_take, List.take_of_length_le (by omega)]
  have h : k + u.length - u.length = k := by omega
  rw [h]

theorem drop_shift (u v : List Char) (k j : ℕ) :
    (u ++ v).drop (k + u.length + j) = v.drop (k + j) := by
  have h : k + u.length + j = u.length + (k + j) := by omega
  rw [h, ← List.drop_drop, List.drop_left]

theorem flattenOut_nil : flattenOut [] = [] := rfl

theorem taggedOf_nil (ty : ContentType) : taggedOf ty [] = [] := rfl

theorem runThink_false_textPrefix (u v : List Char)
    (h1o : ∀ q, q < u.length → ¬ occAt OPEN_TAG (u ++ v) q)
    (h1c : ∀ q, q < u.length → ¬ occAt CLOSE_TAG (u ++ v) q)
    (h2 : ∀ l, rfindSub ['<'] u = some l → '<' ∈ v ∨
      ¬ (((u.drop l).length < 7 ∧ u.drop l <+: OPEN_TAG) ∨
        ((u.drop l).length < 8 ∧ u.drop l <+: CLOSE_TAG))) :
    flattenOut (runThink false (u ++ v)).1 =
      taggedOf ContentType.TEXT u ++ flattenOut (runThink false v).1 ∧
    (runThink false (u ++ v)).2 = (runThink false v).2 := by
  by_cases hu : u = []
  · subst hu
    simp [taggedOf]
  have hshiftC : findSub CLOSE_TAG (u ++ v) = (findSub CLOSE_TAG v).map (· + u.length) :=
    findSub_append_shift h1c
  have hshiftO : findSub OPEN_TAG (u ++ v) = (findSub OPEN_TAG v).map (· + u.length) :=
    findSub_append_shift h1o
  cases hocv : findSub CLOSE_TAG v with
  | some ocv =>
    have hocU : findSub CLOSE_TAG (u ++ v) = some (ocv + u.length) := by
      rw [hshiftC, hocv, Option.map_some']
    cases htsv : findSub OPEN_TAG v with
    | none =>
      have htsU : findSub OPEN_TAG (u ++ v) = none := by
        rw [hshiftO, htsv, Option.map_none']
      rw [runThink_false_orphan (u ++ v) _ hocU (Or.inl htsU),
        runThink_false_orphan v ocv hocv (Or.inl htsv), take_shift, drop_shift]
      constructor
      · simp only [flattenOut_emitCons, taggedOf_append, List.append_assoc]
      · simp only [emitCons_snd]
    | some tsv =>
      have htsU : findSub OPEN_TAG (u ++ v) = some (tsv + u.length) := by
        rw [hshiftO, htsv, Option.map_some']
      by_cases hlt : ocv < tsv
      · rw [runThink_false_orphan (u ++ v) _ hocU (Or.inr ⟨tsv + u.length, htsU, by omega⟩),
          runThink_false_orphan v ocv hocv (Or.inr ⟨tsv, htsv, hlt⟩), take_shift, drop_shift]
        constructor
        · simp only [flattenOut_emitCons, taggedOf_append, List.append_assoc]
        · simp only [emitCons_snd]
      · rw [runThink_false_open (u ++ v) _ htsU (Or.inr ⟨ocv + u.length, hocU, by omega⟩),
          runThink_false_open v tsv htsv (Or.inr ⟨ocv, hocv, hlt⟩), take_shift, drop_shift]
        constructor
        · simp only [flattenOut_emitCons, taggedOf_append, List.append_assoc]
        · simp only [emitCons_snd]
  | none =>
    have hocU : findSub CLOSE_TAG (u ++ v) = none := by
      rw [hshiftC, hocv, Option.map_none']
    cases htsv : findSub OPEN_TAG v with
    | some tsv =>
      have htsU : findSub OPEN_TAG (u ++ v) = some (tsv + u.length) := by
        rw [hshiftO, htsv, Option.map_some']
      rw [runThink_false_open (u ++ v) _ htsU (Or.inl hocU),
        runThink_false_open v tsv htsv (Or.inl hocv), take_shift, drop_shift]
      constructor
      · simp only [flattenOut_emitCons, taggedOf_append, List.append_assoc]
      · simp only [emitCons_snd]
    | none =>
      have htsU : findSub OPEN_TAG (u ++ v) = none := by
        rw [hshiftO, htsv, Option.map_none']
      by_cases hvlt : '<' ∈ v
      · cases hlv : rfindSub ['<'] v with
        | none => exact absurd hvlt ((rfindSub_char_none_iff '<' v).mp hlv)
        | some lv =>
          have hlbU : rfindSub ['<'] (u ++ v) = some (u.length + lv) :=
            rfindSub_char_append_some '<' u v lv hlv
          have hdropU : (u ++ v).drop (u.length + lv) = v.drop lv := by
            rw [← List.drop_drop, List.drop_left]
          have htakeU : (u ++ v).take (u.length + lv) = u ++ v.take lv := by
            rw [Nat.add_comm, take_shift]
          by_cases hcond : ((v.drop lv).length < 7 ∧ v.drop lv <+: OPEN_TAG) ∨
              ((v.drop lv).length < 8 ∧ v.drop lv <+: CLOSE_TAG)
          · have hcondU : (((u ++ v).drop (u.length + lv)).length < 7 ∧
                (u ++ v).drop (u.length + lv) <+: OPEN_TAG) ∨
                (((u ++ v).drop (u.length + lv)).length < 8 ∧
                (u ++ v).drop (u.length + lv) <+: CLOSE_TAG) := by
              rw [hdropU]; exact hcond
            rw [runThink_false_withhold (u ++ v) _ hocU htsU hlbU hcondU,
              runThink_false_withhold v lv hocv htsv hlv hcond, htakeU, hdropU]
            have hne1 : ¬ (u ++ v.take lv = []) := by
              intro h
              exact hu (List.append_eq_nil.mp h).1
            rw [if_neg hne1]
            by_cases hpre : v.take lv = []
            · rw [if_pos hpre]
              have hvne : v ≠ [] := fun h => by
                rw [h] at hvlt
                exact (List.not_mem_nil '<') hvlt
              have hlv0 : lv = 0 := by
                rcases List.take_eq_nil_iff.mp hpre with h | h
                · exact h
                · exact absurd h hvne
              subst hlv0
              have hRv : runThink false v = ([], v, false) := by
                rw [runThink_false_withhold v 0 hocv htsv hlv hcond, if_pos hpre]
              rw [List.drop_zero, hRv]
              constructor
              · rw [hpre, List.append_nil]
                simp only [flattenOut_cons, flattenOut_nil, List.append_nil]
              · rfl
            · rw [if_neg hpre]
              constructor
              · simp only [flattenOut_cons, taggedOf_append, List.append_assoc]
              · rfl
          · have hcondU : ¬ ((((u ++ v).drop (u.length + lv)).length < 7 ∧
                (u ++ v).drop (u.length + lv) <+: OPEN_TAG) ∨
                (((u ++ v).drop (u.length + lv)).length < 8 ∧
                (u ++ v).drop (u.length + lv) <+: CLOSE_TAG)) := by
              rw [hdropU]; exact hcond
            rw [runThink_false_emitall (u ++ v) hocU htsU
                (Or.inr ⟨u.length + lv, hlbU, hcondU⟩),
              runThink_false_emitall v hocv htsv (Or.inr ⟨lv, hlv, hcond⟩)]
            have hvne : v ≠ [] := fun h => by
              rw [h] at hvlt
              exact (List.not_mem_nil '<') hvlt
            rw [if_neg (List.append_ne_nil_of_left_ne_nil hu v), if_neg hvne]
            constructor
            · simp only [flattenOut_cons, flattenOut_nil, taggedOf_append, List.append_nil]
            · rfl
      · have hlvnone : rfindSub ['<'] v = none := (rfindSub_char_none_iff '<' v).mpr hvlt
        have hlbU : rfindSub ['<'] (u ++ v) = rfindSub ['<'] u :=
          rfindSub_char_append_none '<' u v hvlt
        cases hlu : rfindSub ['<'] u with
        | none =>
          rw [runThink_false_emitall (u ++ v) hocU htsU (Or.inl (hlbU.trans hlu)),
            runThink_false_emitall v hocv htsv (Or.inl hlvnone)]
          rw [if_neg (List.append_ne_nil_of_left_ne_nil hu v)]
          by_cases hvne : v = []
          · subst hvne
            rw [if_pos rfl]
            constructor
            · simp only [flattenOut_cons, flattenOut_nil, List.append_nil]
            · rfl
          · rw [if_neg hvne]
            constructor
            · simp only [flattenOut_cons, flattenOut_nil, taggedOf_append, List.append_nil]
            · rfl
        | some lu =>
          rcases h2 lu hlu with hmem | hncond
          · exact absurd hmem hvlt
          · have hlul : lu < u.length := by
              rcases rfindSub_char_some '<' u lu hlu with ⟨hspec, _⟩
              have hh : (u.drop lu).length = (('<' : Char) :: u.drop (lu + 1)).length := by
                rw [hspec]
              rw [List.length_drop, List.length_cons, List.length_drop] at hh
              omega
            have hdlu : (u ++ v).drop lu = u.drop lu ++ v :=
              List.drop_append_of_le_length (by omega)
            have hcondU : ¬ ((((u ++ v).drop lu).length < 7 ∧
                (u ++ v).drop lu <+: OPEN_TAG) ∨
                (((u ++ v).drop lu).length < 8 ∧
                (u ++ v).drop lu <+: CLOSE_TAG)) := by
              intro hc
              apply hncond
              rw [hdlu, List.length_append, List.length_drop] at hc
              rcases hc with ⟨hlen, hpre⟩ | ⟨hlen, hpre⟩
              · refine Or.inl ⟨by rw [List.length_drop]; omega,
                  (List.prefix_append _ _).trans hpre⟩
              · refine Or.inr ⟨by rw [List.length_drop]; omega,
                  (List.prefix_append _ _).trans hpre⟩
            rw [runThink_false_emitall (u ++ v) hocU htsU
                (Or.inr ⟨lu, hlbU.trans hlu, hcondU⟩),
              runThink_false_emitall v hocv htsv (Or.inl hlvnone)]
            rw [if_neg (List.append_ne_nil_of_left_ne_nil hu v)]
            by_cases hvne : v = []
            · subst hvne
              rw [if_pos rfl]
              constructor
              · simp only [flattenOut_cons, flattenOut_nil, List.append_nil]
              · rfl
            · rw [if_neg hvne]
              constructor
              · simp only [flattenOut_cons, flattenOut_nil, taggedOf_append, List.append_nil]
              · rfl

theorem runThink_true_thinkPrefix (u v : List Char)
    (h1c : ∀ q, q < u.length → ¬ occAt CLOSE_TAG (u ++ v) q)
    (h2 : ∀ l, rfindSub ['<'] u = some l → '<' ∈ v ∨
      ¬ ((u.drop l).length < 8 ∧ u.drop l <+: CLOSE_TAG)) :
    flattenOut (runThink true (u ++ v)).1 =
      taggedOf ContentType.THINKING u ++ flattenOut (runThink true v).1 ∧
    (runThink true (u ++ v)).2 = (runThink true v).2 := by
  by_cases hu : u = []
  · subst hu
    simp [taggedOf]
  have hshiftC : findSub CLOSE_TAG (u ++ v) = (findSub CLOSE_TAG v).map (· + u.length) :=
    findSub_append_shift h1c
  cases hocv : findSub CLOSE_TAG v with
  | some ocv =>
    have hocU : findSub CLOSE_TAG (u ++ v) = some (ocv + u.length) := by
      rw [hshiftC, hocv, Option.map_some']
    rw [runThink_true_close (u ++ v) _ hocU, runThink_true_close v ocv hocv,
      take_shift, drop_shift]
    constructor
    · simp only [flattenOut_emitCons, taggedOf_append, List.append_assoc]
    · simp only [emitCons_snd]
  | none =>
    have hocU : findSub CLOSE_TAG (u ++ v) = none := by
      rw [hshiftC, hocv, Option.map_none']
    by_cases hvlt : '<' ∈ v
    · cases hlv : rfindSub ['<'] v with
      | none => exact absurd hvlt ((rfindSub_char_none_iff '<' v).mp hlv)
      | some lv =>
        have hlbU : rfindSub ['<'] (u ++ v) = some (u.length + lv) :=
          rfindSub_char_append_some '<' u v lv hlv
        have hdropU : (u ++ v).drop (u.length + lv) = v.drop lv := by
          rw [← List.drop_drop, List.drop_left]
        have htakeU : (u ++ v).take (u.length + lv) = u ++ v.take lv := by
          rw [Nat.add_comm, take_shift]
        by_cases hcond : v.length - lv < 8 ∧ v.drop lv <+: CLOSE_TAG
        · have hcondU : (u ++ v).length - (u.length + lv) < 8 ∧
              (u ++ v).drop (u.length + lv) <+: CLOSE_TAG := by
            rw [hdropU, List.length_append]
            exact ⟨by omega, hcond.2⟩
          rw [runThink_true_withhold (u ++ v) _ hocU hlbU hcondU,
            runThink_true_withhold v lv hocv hlv hcond, htakeU, hdropU]
          have hne1 : ¬ (u ++ v.take lv = []) := by
            intro h
            exact hu (List.append_eq_nil.mp h).1
          rw [if_neg hne1]
          by_cases hpre : v.take lv = []
          · rw [if_pos hpre]
            have hvne : v ≠ [] := fun h => by
              rw [h] at hvlt
              exact (List.not_mem_nil '<') hvlt
            have hlv0 : lv = 0 := by
              rcases List.take_eq_nil_iff.mp hpre with h | h
              · exact h
              · exact absurd h hvne
            subst hlv0
            have hRv : runThink true v = ([], v, true) := by
              rw [runThink_true_withhold v 0 hocv hlv hcond, if_pos hpre]
            rw [List.drop_zero, hRv]
            constructor
            · rw [hpre, List.append_nil]
              simp only [flattenOut_cons, flattenOut_nil, List.append_nil]
            · rfl
          · rw [if_neg hpre]
            constructor
            · simp only [flattenOut_cons, taggedOf_append, List.append_assoc]
            · rfl
        · have hcondU : ¬ ((u ++ v).length - (u.length + lv) < 8 ∧
              (u ++ v).drop (u.length + lv) <+: CLOSE_TAG) := by
            rw [hdropU, List.length_append]
            intro hc
            exact hcond ⟨by omega, hc.2⟩
          rw [runThink_true_emitall (u ++ v) hocU (Or.inr ⟨u.length + lv, hlbU, hcondU⟩),
            runThink_true_emitall v hocv (Or.inr ⟨lv, hlv, hcond⟩)]
          have hvne : v ≠ [] := fun h => by
            rw [h] at hvlt
            exact (List.not_mem_nil '<') hvlt
          rw [if_neg (List.append_ne_nil_of_left_ne_nil hu v), if_neg hvne]
          constructor
          · simp only [flattenOut_cons, flattenOut_nil, taggedOf_append, List.append_nil]
          · rfl
    · have hlvnone : rfindSub ['<'] v = none := (rfindSub_char_none_iff '<' v).mpr hvlt
      have hlbU : rfindSub ['<'] (u ++ v) = rfindSub ['<'] u :=
        rfindSub_char_append_none '<' u v hvlt
      cases hlu : rfindSub ['<'] u with
      | none =>
        rw [runThink_true_emitall (u ++ v) hocU (Or.inl (hlbU.trans hlu)),
          runThink_true_emitall v hocv (Or.inl hlvnone)]
        rw [if_neg (List.append_ne_nil_of_left_ne_nil hu v)]
        by_cases hvne : v = []
        · subst hvne
          rw [if_pos rfl]
          constructor
          · simp only [flattenOut_cons, flattenOut_nil, List.append_nil]
          · rfl
        · rw [if_neg hvne]
          constructor
          · simp only [flattenOut_cons, flattenOut_nil, taggedOf_append, List.append_nil]
          · rfl
      | some lu =>
        rcases h2 lu hlu with hmem | hncond
        · exact absurd hmem hvlt
        · have hlul : lu < u.length := by
            rcases rfindSub_char_some '<' u lu hlu with ⟨hspec, _⟩
            have hh : (u.drop lu).length = (('<' : Char) :: u.drop (lu + 1)).length := by
              rw [hspec]
            rw [List.length_drop, List.length_cons, List.length_drop] at hh
            omega
          have hdlu : (u ++ v).drop lu = u.drop lu ++ v :=
            List.drop_append_of_le_length (by omega)
          have hcondU : ¬ ((u ++ v).length - lu < 8 ∧
              (u ++ v).drop lu <+: CLOSE_TAG) := by
            intro hc
            apply hncond
            rw [hdlu, List.length_append] at hc
            exact ⟨by rw [List.length_drop]; omega, (List.prefix_append _ _).trans hc.2⟩
          rw [runThink_true_emitall (u ++ v) hocU (Or.inr ⟨lu, hlbU.trans hlu, hcondU⟩),
            runThink_true_emitall v hocv (Or.inl hlvnone)]
          rw [if_neg (List.append_ne_nil_of_left_ne_nil hu v)]
          by_cases hvne : v = []
          · subst hvne
            rw [if_pos rfl]
            constructor
            · simp only [flattenOut_cons, flattenOut_nil, List.append_nil]
            · rfl
          · rw [if_neg hvne]
            constructor
            · simp only [flattenOut_cons, flattenOut_nil, taggedOf_append, List.append_nil]
            · rfl

theorem OPEN_TAG_ne : OPEN_TAG ≠ [] := by decide

theorem CLOSE_TAG_ne : CLOSE_TAG ≠ [] := by decide

theorem OPEN_TAG_len : OPEN_TAG.length = 7 := rfl

theorem CLOSE_TAG_len : CLOSE_TAG.length = 8 := rfl

theorem OPEN_TAG_head : OPEN_TAG.head? = some '<' := rfl

theorem CLOSE_TAG_head : CLOSE_TAG.head? = some '<' := rfl

theorem OPEN_TAG_tail_no_lt : '<' ∉ OPEN_TAG.drop 1 := by decide

theorem CLOSE_TAG_tail_no_lt : '<' ∉ CLOSE_TAG.drop 1 := by decide

theorem noBorder_OPEN : noBorder OPEN_TAG := by
  have h : ∀ k, k < OPEN_TAG.length →
      (0 < k → OPEN_TAG.drop k ≠ OPEN_TAG.take (OPEN_TAG.length - k)) := by decide
  intro k hk1 hk2
  exact h k hk2 hk1

theorem noBorder_CLOSE : noBorder CLOSE_TAG := by
  have h : ∀ k, k < CLOSE_TAG.length →
      (0 < k → CLOSE_TAG.drop k ≠ CLOSE_TAG.take (CLOSE_TAG.length - k)) := by decide
  intro k hk1 hk2
  exact h k hk2 hk1

theorem no_occ_straddle_lt {pat a t : List Char} {la q : ℕ}
    (hhead : pat.head? = some '<') (hp1 : '<' ∉ pat.drop 1)
    (hs : findSub pat a = none)
    (hla : a.drop la = '<' :: a.drop (la + 1))
    (hq : q < la) : ¬ occAt pat (a ++ t) q := by
  intro hocc
  have hlal : la < a.length := by
    have hh : (a.drop la).length = (('<' : Char) :: a.drop (la + 1)).length := by rw [hla]
    rw [List.length_drop, List.length_cons, List.length_drop] at hh
    omega
  by_cases hcase : q + pat.length ≤ a.length
  · rw [occAt_append_left hcase] at hocc
    exact (findSub_none_iff pat a).mp hs q hocc
  · push_neg at hcase
    unfold occAt at hocc
    rw [List.drop_append_of_le_length (by omega)] at hocc
    have hxl : (a.drop q).length ≤ pat.length := by rw [List.length_drop]; omega
    rcases prefix_split hocc hxl with ⟨h1, _⟩
    rw [List.length_drop] at h1
    have hmem : '<' ∈ a.drop (q + 1) := by
      have hsub : a.drop la = (a.drop (q + 1)).drop (la - (q + 1)) := by
        rw [List.drop_drop]
        congr 1
        omega
      have hml : '<' ∈ a.drop la := by rw [hla]; exact List.mem_cons_self _ _
      rw [hsub] at hml
      exact List.drop_subset _ _ hml
    have hdq : a.drop (q + 1) = (pat.drop 1).take (a.length - q - 1) := by
      have h3 : a.drop (q + 1) = (a.drop q).drop 1 := by
        rw [List.drop_drop]
      rw [h3, h1, List.drop_take]
    rw [hdq] at hmem
    exact hp1 (List.take_subset _ _ hmem)

theorem exists_cons_of_head {pat : List Char} (hhead : pat.head? = some '<') :
    ∃ pt, pat = '<' :: pt := by
  cases pat with
  | nil => exact Option.noConfusion hhead
  | cons c pt =>
    injection hhead with hh
    exact ⟨pt, by rw [hh]⟩

theorem occ_head_mem {pat a t : List Char} {q : ℕ}
    (hhead : pat.head? = some '<') (hq : q < a.length)
    (hocc : occAt pat (a ++ t) q) : '<' ∈ a.drop q := by
  rcases exists_cons_of_head hhead with ⟨pt, hpat⟩
  unfold occAt at hocc
  rw [List.drop_append_of_le_length (by omega), hpat] at hocc
  have hd : a.drop q = a[q] :: a.drop (q + 1) := List.drop_eq_getElem_cons hq
  rw [hd] at hocc ⊢
  rw [show a[q] :: a.drop (q + 1) ++ t = a[q] :: (a.drop (q + 1) ++ t) from rfl,
    List.cons_prefix_cons] at hocc
  rw [← hocc.1]
  exact List.mem_cons_self _ _

theorem no_occ_gt {pat a t : List Char} {la q : ℕ}
    (hhead : pat.head? = some '<')
    (hnb : '<' ∉ a.drop (la + 1))
    (hq1 : la < q) (hq2 : q < a.length) : ¬ occAt pat (a ++ t) q := by
  intro hocc
  have hmem := occ_head_mem hhead hq2 hocc
  have hsub : a.drop q = (a.drop (la + 1)).drop (q - (la + 1)) := by
    rw [List.drop_drop]
    congr 1
    omega
  rw [hsub] at hmem
  exact hnb (List.drop_subset _ _ hmem)

theorem occAt_at_bracket {pat a t : List Char} {la : ℕ}
    (hs : findSub pat a = none) (hla : la < a.length)
    (hocc : occAt pat (a ++ t) la) :
    (a.drop la).length < pat.length ∧ a.drop la <+: pat := by
  by_cases hcase : la + pat.length ≤ a.length
  · rw [occAt_append_left hcase] at hocc
    exact absurd hocc ((findSub_none_iff pat a).mp hs la)
  · push_neg at hcase
    unfold occAt at hocc
    rw [List.drop_append_of_le_length (by omega)] at hocc
    have hxl : (a.drop la).length ≤ pat.length := by rw [List.length_drop]; omega
    rcases prefix_split hocc hxl with ⟨h1, _⟩
    constructor
    · rw [List.length_drop]; omega
    · rw [h1]
      exact List.take_prefix _ _

theorem runThink_split (m : Bool) (a t : List Char) :
    flattenOut (runThink m (a ++ t)).1 =
      flattenOut (runThink m a).1 ++
        flattenOut (runThink (runThink m a).2.2 ((runThink m a).2.1 ++ t)).1 ∧
    (runThink m (a ++ t)).2 = (runThink (runThink m a).2.2 ((runThink m a).2.1 ++ t)).2 := by
  have main : ∀ (n : ℕ) (m : Bool) (a : List Char), a.length ≤ n →
      flattenOut (runThink m (a ++ t)).1 =
        flattenOut (runThink m a).1 ++
          flattenOut (runThink (runThink m a).2.2 ((runThink m a).2.1 ++ t)).1 ∧
      (runThink m (a ++ t)).2 = (runThink (runThink m a).2.2 ((runThink m a).2.1 ++ t)).2 := by
    intro n
    induction n using Nat.strong_induction_on with
    | _ n ih =>
      intro m a hlen
      cases m with
      | false =>
        cases hoc : findSub CLOSE_TAG a with
        | some oc =>
          have hocc := ((findSub_some_iff CLOSE_TAG a oc).mp hoc).1
          have hocb : oc + 8 ≤ a.length := by
            have hlb := occAt_length hocc CLOSE_TAG_ne
            rwa [CLOSE_TAG_len] at hlb
          have hane : a ≠ [] := by
            intro h
            rw [h] at hocb
            simp at hocb
          have hocU : findSub CLOSE_TAG (a ++ t) = some oc :=
            findSub_append_of_some CLOSE_TAG_ne hoc
          have htake : (a ++ t).take oc = a.take oc :=
            List.take_append_of_le_length (by omega)
          have hdrop : (a ++ t).drop (oc + 8) = a.drop (oc + 8) ++ t :=
            List.drop_append_of_le_length (by omega)
          have hlt8 : (a.drop (oc + 8)).length < n := by
            rw [List.length_drop]
            have := List.length_pos.mpr hane
            omega
          cases hts : findSub OPEN_TAG a with
          | none =>
            have hdisj : findSub OPEN_TAG (a ++ t) = none ∨
                ∃ ts, findSub OPEN_TAG (a ++ t) = some ts ∧ oc < ts := by
              cases htsU : findSub OPEN_TAG (a ++ t) with
              | none => exact Or.inl rfl
              | some ts2 =>
                refine Or.inr ⟨ts2, rfl, ?_⟩
                have hocc2 := ((findSub_some_iff OPEN_TAG (a ++ t) ts2).mp htsU).1
                have hgt := findSub_append_of_none hts hocc2
                rw [OPEN_TAG_len] at hgt
                omega
            rw [runThink_false_orphan (a ++ t) oc hocU hdisj,
              runThink_false_orphan a oc hoc (Or.inl hts), htake, hdrop]
            rcases ih _ hlt8 false (a.drop (oc + 8)) le_rfl with ⟨ih1, ih2⟩
            constructor
            · simp only [flattenOut_emitCons, emitCons_snd, ih1, List.append_assoc]
            · simp only [emitCons_snd, ih2]
          | some ts =>
            have htsU : findSub OPEN_TAG (a ++ t) = some ts :=
              findSub_append_of_some OPEN_TAG_ne hts
            by_cases hcmp : oc < ts
            · rw [runThink_false_orphan (a ++ t) oc hocU (Or.inr ⟨ts, htsU, hcmp⟩),
                runThink_false_orphan a oc hoc (Or.inr ⟨ts, hts, hcmp⟩), htake, hdrop]
              rcases ih _ hlt8 false (a.drop (oc + 8)) le_rfl with ⟨ih1, ih2⟩
              constructor
              · simp only [flattenOut_emitCons, emitCons_snd, ih1, List.append_assoc]
              · simp only [emitCons_snd, ih2]
            · have hocc2 := ((findSub_some_iff OPEN_TAG a ts).mp hts).1
              have htsb : ts + 7 ≤ a.length := by
                have hlb := occAt_length hocc2 OPEN_TAG_ne
                rwa [OPEN_TAG_len] at hlb
              have htake2 : (a ++ t).take ts = a.take ts :=
                List.take_append_of_le_length (by omega)
              have hdrop2 : (a ++ t).drop (ts + 7) = a.drop (ts + 7) ++ t :=
                List.drop_append_of_le_length (by omega)
              have hlt7 : (a.drop (ts + 7)).length < n := by
                rw [List.length_drop]
                have := List.length_pos.mpr hane
                omega
              rw [runThink_false_open (a ++ t) ts htsU (Or.inr ⟨oc, hocU, hcmp⟩),
                runThink_false_open a ts hts (Or.inr ⟨oc, hoc, hcmp⟩), htake2, hdrop2]
              rcases ih _ hlt7 true (a.drop (ts + 7)) le_rfl with ⟨ih1, ih2⟩
              constructor
              · simp only [flattenOut_emitCons, emitCons_snd, ih1, List.append_assoc]
              · simp only [emitCons_snd, ih2]
        | none =>
          cases hts : findSub OPEN_TAG a with
          | some ts =>
            have hocc2 := ((findSub_some_iff OPEN_TAG a ts).mp hts).1
            have htsb : ts + 7 ≤ a.length := by
              have hlb := occAt_length hocc2 OPEN_TAG_ne
              rwa [OPEN_TAG_len] at hlb
            have hane : a ≠ [] := by
              intro h
              rw [h] at htsb
              simp at htsb
            have htsU : findSub OPEN_TAG (a ++ t) = some ts :=
              findSub_append_of_some OPEN_TAG_ne hts
            have hdisj : findSub CLOSE_TAG (a ++ t) = none ∨
                ∃ oc, findSub CLOSE_TAG (a ++ t) = some oc ∧ ¬ oc < ts := by
              cases hocU : findSub CLOSE_TAG (a ++ t) with
              | none => exact Or.inl rfl
              | some oc2 =>
                refine Or.inr ⟨oc2, rfl, ?_⟩
                have hocc3 := ((findSub_some_iff CLOSE_TAG (a ++ t) oc2).mp hocU).1
                have hgt := findSub_append_of_none hoc hocc3
                rw [CLOSE_TAG_len] at hgt
                omega
            have htake2 : (a ++ t).take ts = a.take ts :=
              List.take_append_of_le_length (by omega)
            have hdrop2 : (a ++ t).drop (ts + 7) = a.drop (ts + 7) ++ t :=
              List.drop_append_of_le_length (by omega)
            have hlt7 : (a.drop (ts + 7)).length < n := by
              rw [List.length_drop]
              have := List.length_pos.mpr hane
              omega
            rw [runThink_false_open (a ++ t) ts htsU hdisj,
              runThink_false_open a ts hts (Or.inl hoc), htake2, hdrop2]
            rcases ih _ hlt7 true (a.drop (ts + 7)) le_rfl with ⟨ih1, ih2⟩
            constructor
            · simp only [flattenOut_emitCons, emitCons_snd, ih1, List.append_assoc]
            · simp only [emitCons_snd, ih2]
          | none =>
            cases hlb : rfindSub ['<'] a with
            | some la =>
              rcases rfindSub_char_some '<' a la hlb with ⟨hspec, hnolt⟩
              have hlal : la < a.length := by
                have hh : (a.drop la).length = (('<' : Char) :: a.drop (la + 1)).length := by
                  rw [hspec]
                rw [List.length_drop, List.length_cons, List.length_drop] at hh
                omega
              have hane : a ≠ [] := by
                intro h
                rw [h] at hlal
                simp at hlal
              by_cases hcond : ((a.drop la).length < 7 ∧ a.drop la <+: OPEN_TAG) ∨
                  ((a.drop la).length < 8 ∧ a.drop la <+: CLOSE_TAG)
              · rw [runThink_false_withhold a la hoc hts hlb hcond]
                by_cases hpre : a.take la = []
                · rw [if_pos hpre]
                  constructor
                  · show flattenOut (runThink false (a ++ t)).1 =
                      flattenOut ([] : List (ContentType × List Char)) ++
                        flattenOut (runThink false (a ++ t)).1
                    rw [flattenOut_nil, List.nil_append]
                  · rfl
                · rw [if_neg hpre]
                  have hC : findSub CLOSE_TAG (a.drop la) = none := findSub_drop_none hoc
                  have hO : findSub OPEN_TAG (a.drop la) = none := findSub_drop_none hts
                  have hR : rfindSub ['<'] (a.drop la) = some 0 := by
                    rw [hspec]
                    exact rfindSub_cons_head '<' (a.drop (la + 1)) hnolt
                  have hcond0 : (((a.drop la).drop 0).length < 7 ∧
                      (a.drop la).drop 0 <+: OPEN_TAG) ∨
                      (((a.drop la).drop 0).length < 8 ∧
                      (a.drop la).drop 0 <+: CLOSE_TAG) := by
                    rw [List.drop_zero]
                    exact hcond
                  have hRp : runThink false (a.drop la) = ([], a.drop la, false) := by
                    rw [runThink_false_withhold (a.drop la) 0 hC hO hR hcond0,
                      if_pos (show List.take 0 (a.drop la) = [] from rfl)]
                  have hlen_take : (a.take la).length = la := by
                    rw [List.length_take]
                    exact inf_eq_left.mpr (le_of_lt hlal)
                  have heq : a.take la ++ (a.drop la ++ t) = a ++ t := by
                    rw [← List.append_assoc, List.take_append_drop]
                  have h1o : ∀ q, q < (a.take la).length →
                      ¬ occAt OPEN_TAG (a.take la ++ (a.drop la ++ t)) q := by
                    intro q hq
                    rw [heq]
                    rw [hlen_take] at hq
                    exact no_occ_straddle_lt OPEN_TAG_head OPEN_TAG_tail_no_lt hts hspec hq
                  have h1c : ∀ q, q < (a.take la).length →
                      ¬ occAt CLOSE_TAG (a.take la ++ (a.drop la ++ t)) q := by
                    intro q hq
                    rw [heq]
                    rw [hlen_take] at hq
                    exact no_occ_straddle_lt CLOSE_TAG_head CLOSE_TAG_tail_no_lt hoc hspec hq
                  have h2 : ∀ l, rfindSub ['<'] (a.take la) = some l →
                      '<' ∈ (a.drop la ++ t) ∨
                      ¬ ((((a.take la).drop l).length < 7 ∧ (a.take la).drop l <+: OPEN_TAG) ∨
                        (((a.take la).drop l).length < 8 ∧
                          (a.take la).drop l <+: CLOSE_TAG)) := by
                    intro l _
                    refine Or.inl ?_
                    rw [hspec]
                    exact List.mem_append_left _ (List.mem_cons_self _ _)
                  rcases runThink_false_textPrefix (a.take la) (a.drop la ++ t) h1o h1c h2
                    with ⟨hE1, hE2⟩
                  rw [heq] at hE1 hE2
                  constructor
                  · rw [hE1, hRp]
                    simp only [flattenOut_cons, flattenOut_nil, List.append_nil]
                  · rw [hE2, hRp]
              · have h1o : ∀ q, q < a.length → ¬ occAt OPEN_TAG (a ++ t) q := by
                  intro q hq hocq
                  rcases Nat.lt_trichotomy q la with hcmp | hcmp | hcmp
                  · exact no_occ_straddle_lt OPEN_TAG_head OPEN_TAG_tail_no_lt hts hspec
                      hcmp hocq
                  · subst hcmp
                    rcases occAt_at_bracket hts hlal hocq with ⟨hl1, hp1⟩
                    rw [OPEN_TAG_len] at hl1
                    exact hcond (Or.inl ⟨hl1, hp1⟩)
                  · exact no_occ_gt OPEN_TAG_head hnolt hcmp hq hocq
                have h1c : ∀ q, q < a.length → ¬ occAt CLOSE_TAG (a ++ t) q := by
                  intro q hq hocq
                  rcases Nat.lt_trichotomy q la with hcmp | hcmp | hcmp
                  · exact no_occ_straddle_lt CLOSE_TAG_head CLOSE_TAG_tail_no_lt hoc hspec
                      hcmp hocq
                  · subst hcmp
                    rcases occAt_at_bracket hoc hlal hocq with ⟨hl1, hp1⟩
                    rw [CLOSE_TAG_len] at hl1
                    exact hcond (Or.inr ⟨hl1, hp1⟩)
                  · exact no_occ_gt CLOSE_TAG_head hnolt hcmp hq hocq
                have h2 : ∀ l, rfindSub ['<'] a = some l → '<' ∈ t ∨
                    ¬ (((a.drop l).length < 7 ∧ a.drop l <+: OPEN_TAG) ∨
                      ((a.drop l).length < 8 ∧ a.drop l <+: CLOSE_TAG)) := by
                  intro l hl
                  rw [hlb] at hl
                  injection hl with hl
                  subst hl
                  exact Or.inr hcond
                rcases runThink_false_textPrefix a t h1o h1c h2 with ⟨hE1, hE2⟩
                rw [runThink_false_emitall a hoc hts (Or.inr ⟨la, hlb, hcond⟩), if_neg hane]
                constructor
                · rw [hE1]
                  simp only [flattenOut_cons, flattenOut_nil, List.append_nil, List.nil_append]
                · exact hE2
            | none =>
              by_cases haneq : a = []
              · subst haneq
                simp [runThink_nil, flattenOut_nil]
              · have hnolt2 : '<' ∉ a := (rfindSub_char_none_iff '<' a).mp hlb
                have h1o : ∀ q, q < a.length → ¬ occAt OPEN_TAG (a ++ t) q := by
                  intro q hq hocq
                  exact hnolt2 (List.drop_subset _ _ (occ_head_mem OPEN_TAG_head hq hocq))
                have h1c : ∀ q, q < a.length → ¬ occAt CLOSE_TAG (a ++ t) q := by
                  intro q hq hocq
                  exact hnolt2 (List.drop_subset _ _ (occ_head_mem CLOSE_TAG_head hq hocq))
                have h2 : ∀ l, rfindSub ['<'] a = some l → '<' ∈ t ∨
                    ¬ (((a.drop l).length < 7 ∧ a.drop l <+: OPEN_TAG) ∨
                      ((a.drop l).length < 8 ∧ a.drop l <+: CLOSE_TAG)) := by
                  intro l hl
                  rw [hlb] at hl
                  exact Option.noConfusion hl
                rcases runThink_false_textPrefix a t h1o h1c h2 with ⟨hE1, hE2⟩
                rw [runThink_false_emitall a hoc hts (Or.inl hlb), if_neg haneq]
                constructor
                · rw [hE1]
                  simp only [flattenOut_cons, flattenOut_nil, List.append_nil, List.nil_append]
                · exact hE2
      | true =>
        cases hte : findSub CLOSE_TAG a with
        | some te =>
          have hocc := ((findSub_some_iff CLOSE_TAG a te).mp hte).1
          have hocb : te + 8 ≤ a.length := by
            have hlb := occAt_length hocc CLOSE_TAG_ne
            rwa [CLOSE_TAG_len] at hlb
          have hane : a ≠ [] := by
            intro h
            rw [h] at hocb
            simp at hocb
          have hocU : findSub CLOSE_TAG (a ++ t) = some te :=
            findSub_append_of_some CLOSE_TAG_ne hte
          have htake : (a ++ t).take te = a.take te :=
            List.take_append_of_le_length (by omega)
          have hdrop : (a ++ t).drop (te + 8) = a.drop (te + 8) ++ t :=
            List.drop_append_of_le_length (by omega)
          have hlt8 : (a.drop (te + 8)).length < n := by
            rw [List.length_drop]
            have := List.length_pos.mpr hane
            omega
          rw [runThink_true_close (a ++ t) te hocU, runThink_true_close a te hte,
            htake, hdrop]
          rcases ih _ hlt8 false (a.drop (te + 8)) le_rfl with ⟨ih1, ih2⟩
          constructor
          · simp only [flattenOut_emitCons, emitCons_snd, ih1, List.append_assoc]
          · simp only [emitCons_snd, ih2]
        | none =>
          cases hlb : rfindSub ['<'] a with
          | some la =>
            rcases rfindSub_char_some '<' a la hlb with ⟨hspec, hnolt⟩
            have hlal : la < a.length := by
              have hh : (a.drop la).length = (('<' : Char) :: a.drop (la + 1)).length := by
                rw [hspec]
              rw [List.length_drop, List.length_cons, List.length_drop] at hh
              omega
            have hane : a ≠ [] := by
              intro h
              rw [h] at hlal
              simp at hlal
            by_cases hcond : a.length - la < 8 ∧ a.drop la <+: CLOSE_TAG
            · rw [runThink_true_withhold a la hte hlb hcond]
              by_cases hpre : a.take la = []
              · rw [if_pos hpre]
                constructor
                · show flattenOut (runThink true (a ++ t)).1 =
                    flattenOut ([] : List (ContentType × List Char)) ++
                      flattenOut (runThink true (a ++ t)).1
                  rw [flattenOut_nil, List.nil_append]
                · rfl
              · rw [if_neg hpre]
                have hC : findSub CLOSE_TAG (a.drop la) = none := findSub_drop_none hte
                have hR : rfindSub ['<'] (a.drop la) = some 0 := by
                  rw [hspec]
                  exact rfindSub_cons_head '<' (a.drop (la + 1)) hnolt
                have hcond0 : (a.drop la).length - 0 < 8 ∧
                    (a.drop la).drop 0 <+: CLOSE_TAG := by
                  constructor
                  · rw [Nat.sub_zero, List.length_drop]
                    exact hcond.1
                  · rw [List.drop_zero]
                    exact hcond.2
                have hRp : runThink true (a.drop la) = ([], a.drop la, true) := by
                  rw [runThink_true_withhold (a.drop la) 0 hC hR hcond0,
                    if_pos (show List.take 0 (a.drop la) = [] from rfl)]
                have hlen_take : (a.take la).length = la := by
                  rw [List.length_take]
                  exact inf_eq_left.mpr (le_of_lt hlal)
                have heq : a.take la ++ (a.drop la ++ t) = a ++ t := by
                  rw [← List.append_assoc, List.take_append_drop]
                have h1c : ∀ q, q < (a.take la).length →
                    ¬ occAt CLOSE_TAG (a.take la ++ (a.drop la ++ t)) q := by
                  intro q hq
                  rw [heq]
                  rw [hlen_take] at hq
                  exact no_occ_straddle_lt CLOSE_TAG_head CLOSE_TAG_tail_no_lt hte hspec hq
                have h2 : ∀ l, rfindSub ['<'] (a.take la) = some l →
                    '<' ∈ (a.drop la ++ t) ∨
                    ¬ (((a.take la).drop l).length < 8 ∧
                      (a.take la).drop l <+: CLOSE_TAG) := by
                  intro l _
                  refine Or.inl ?_
                  rw [hspec]
                  exact List.mem_append_left _ (List.mem_cons_self _ _)
                rcases runThink_true_thinkPrefix (a.take la) (a.drop la ++ t) h1c h2
                  with ⟨hE1, hE2⟩
                rw [heq] at hE1 hE2
                constructor
                · rw [hE1, hRp]
                  simp only [flattenOut_cons, flattenOut_nil, List.append_nil]
                · rw [hE2, hRp]
            · have h1c : ∀ q, q < a.length → ¬ occAt CLOSE_TAG (a ++ t) q := by
                intro q hq hocq
                rcases Nat.lt_trichotomy q la with hcmp | hcmp | hcmp
                · exact no_occ_straddle_lt CLOSE_TAG_head CLOSE_TAG_tail_no_lt hte hspec
                    hcmp hocq
                · subst hcmp
                  rcases occAt_at_bracket hte hlal hocq with ⟨hl1, hp1⟩
                  rw [CLOSE_TAG_len, List.length_drop] at hl1
                  exact hcond ⟨hl1, hp1⟩
                · exact no_occ_gt CLOSE_TAG_head hnolt hcmp hq hocq
              have h2 : ∀ l, rfindSub ['<'] a = some l → '<' ∈ t ∨
                  ¬ ((a.drop l).length < 8 ∧ a.drop l <+: CLOSE_TAG) := by
                intro l hl
                rw [hlb] at hl
                injection hl with hl
                subst hl
                refine Or.inr ?_
                rw [List.length_drop]
                exact hcond
              rcases runThink_true_thinkPrefix a t h1c h2 with ⟨hE1, hE2⟩
              have hncondB : ¬ (a.length - la < 8 ∧ a.drop la <+: CLOSE_TAG) := hcond
              rw [runThink_true_emitall a hte (Or.inr ⟨la, hlb, hncondB⟩), if_neg hane]
              constructor
              · rw [hE1]
                simp only [flattenOut_cons, flattenOut_nil, List.append_nil, List.nil_append]
              · exact hE2
          | none =>
            by_cases haneq : a = []
            · subst haneq
              simp [runThink_nil, flattenOut_nil]
            · have hnolt2 : '<' ∉ a := (rfindSub_char_none_iff '<' a).mp hlb
              have h1c : ∀ q, q < a.length → ¬ occAt CLOSE_TAG (a ++ t) q := by
                intro q hq hocq
                exact hnolt2 (List.drop_subset _ _ (occ_head_mem CLOSE_TAG_head hq hocq))
              have h2 : ∀ l, rfindSub ['<'] a = some l → '<' ∈ t ∨
                  ¬ ((a.drop l).length < 8 ∧ a.drop l <+: CLOSE_TAG) := by
                intro l hl
                rw [hlb] at hl
                exact Option.noConfusion hl
              rcases runThink_true_thinkPrefix a t h1c h2 with ⟨hE1, hE2⟩
              rw [runThink_true_emitall a hte (Or.inl hlb), if_neg haneq]
              constructor
              · rw [hE1]
                simp only [flattenOut_cons, flattenOut_nil, List.append_nil, List.nil_append]
              · exact hE2
  exact main a.length m a le_rfl

theorem flattenOut_tpFlush (p : ThinkTagParser) :
    flattenOut (tpFlush p) = pendFlat p.buffer p.inThinkTag := by
  unfold tpFlush pendFlat
  by_cases h : p.buffer = []
  · rw [if_pos h, h, flattenOut_nil, taggedOf_nil]
  · rw [if_neg h, flattenOut_cons, flattenOut_nil, List.append_nil]

theorem tpFeedMany_eq_single (chunks : List (List Char)) (p : ThinkTagParser)
    (hstop : runThink p.inThinkTag p.buffer = ([], p.buffer, p.inThinkTag)) :
    flattenOut (tpFeedMany p chunks).1 ++ flattenOut (tpFlush (tpFeedMany p chunks).2) =
      flattenOut (runThink p.inThinkTag (p.buffer ++ chunks.flatten)).1 ++
        flattenOut (tpFlush ⟨(runThink p.inThinkTag (p.buffer ++ chunks.flatten)).2.1,
          (runThink p.inThinkTag (p.buffer ++ chunks.flatten)).2.2⟩) := by
  induction chunks generalizing p with
  | nil =>
    show flattenOut ([] : List (ContentType × List Char)) ++ flattenOut (tpFlush p) = _
    rw [List.flatten_nil, List.append_nil, hstop, flattenOut_nil, List.nil_append]
  | cons c cs ihc =>
    have hstep : tpFeedMany p (c :: cs) =
        ((tpFeed p c).1 ++ (tpFeedMany (tpFeed p c).2 cs).1,
          (tpFeedMany (tpFeed p c).2 cs).2) := rfl
    rw [hstep]
    have hstop2 : runThink (tpFeed p c).2.inThinkTag (tpFeed p c).2.buffer =
        ([], (tpFeed p c).2.buffer, (tpFeed p c).2.inThinkTag) := by
      show runThink (runThink p.inThinkTag (p.buffer ++ c)).2.2
          (runThink p.inThinkTag (p.buffer ++ c)).2.1 = _
      exact runThink_stopped p.inThinkTag (p.buffer ++ c)
    have hIH := ihc (tpFeed p c).2 hstop2
    have hsplit := runThink_split p.inThinkTag (p.buffer ++ c) cs.flatten
    have hflat : p.buffer ++ (c :: cs).flatten = (p.buffer ++ c) ++ cs.flatten := by
      rw [List.flatten_cons, List.append_assoc]
    rw [hflat]
    rcases hsplit with ⟨hs1, hs2⟩
    rw [flattenOut_append, List.append_assoc, hIH, hs1]
    have hfeed1 : (tpFeed p c).1 = (runThink p.inThinkTag (p.buffer ++ c)).1 := rfl
    have hfeedb : (tpFeed p c).2.buffer = (runThink p.inThinkTag (p.buffer ++ c)).2.1 := rfl
    have hfeedm : (tpFeed p c).2.inThinkTag =
        (runThink p.inThinkTag (p.buffer ++ c)).2.2 := rfl
    rw [hfeed1, hfeedb, hfeedm, List.append_assoc]
    have hst : (runThink (runThink p.inThinkTag (p.buffer ++ c)).2.2
        ((runThink p.inThinkTag (p.buffer ++ c)).2.1 ++ cs.flatten)).2 =
        (runThink p.inThinkTag (p.buffer ++ c ++ cs.flatten)).2 := hs2.symm
    rw [hst]

theorem emitCons_empty (c : ContentType × List Char)
    (r : List (ContentType × List Char) × List Char × Bool) (h : c.2 = []) :
    emitCons c r = r := by
  unfold emitCons
  rw [if_pos h]

theorem pot_stop_false (a : List Char) (la : ℕ)
    (hC : findSub CLOSE_TAG a = none) (hO : findSub OPEN_TAG a = none)
    (hspec : a.drop la = '<' :: a.drop (la + 1)) (hnolt : '<' ∉ a.drop (la + 1))
    (hcond : ((a.drop la).length < 7 ∧ a.drop la <+: OPEN_TAG) ∨
      ((a.drop la).length < 8 ∧ a.drop la <+: CLOSE_TAG)) :
    runThink false (a.drop la) = ([], a.drop la, false) := by
  have hC2 : findSub CLOSE_TAG (a.drop la) = none := findSub_drop_none hC
  have hO2 : findSub OPEN_TAG (a.drop la) = none := findSub_drop_none hO
  have hR : rfindSub ['<'] (a.drop la) = some 0 := by
    rw [hspec]
    exact rfindSub_cons_head '<' (a.drop (la + 1)) hnolt
  have hcond0 : (((a.drop la).drop 0).length < 7 ∧ (a.drop la).drop 0 <+: OPEN_TAG) ∨
      (((a.drop la).drop 0).length < 8 ∧ (a.drop la).drop 0 <+: CLOSE_TAG) := by
    rw [List.drop_zero]
    exact hcond
  rw [runThink_false_withhold (a.drop la) 0 hC2 hO2 hR hcond0,
    if_pos (show List.take 0 (a.drop la) = [] from rfl)]

theorem runThink_text_total (u : List Char)
    (hO : findSub OPEN_TAG u = none) (hC : findSub CLOSE_TAG u = none) :
    flattenOut (runThink false u).1 ++
      pendFlat (runThink false u).2.1 (runThink false u).2.2 =
      taggedOf ContentType.TEXT u := by
  cases hlb : rfindSub ['<'] u with
  | some la =>
    rcases rfindSub_char_some '<' u la hlb with ⟨hspec, hnolt⟩
    by_cases hcond : ((u.drop la).length < 7 ∧ u.drop la <+: OPEN_TAG) ∨
        ((u.drop la).length < 8 ∧ u.drop la <+: CLOSE_TAG)
    · rw [runThink_false_withhold u la hC hO hlb hcond]
      by_cases hpre : u.take la = []
      · rw [if_pos hpre]
        show flattenOut ([] : List (ContentType × List Char)) ++ pendFlat u false = _
        rw [flattenOut_nil, List.nil_append]
        have hla0 : la = 0 := by
          rcases List.take_eq_nil_iff.mp hpre with h | h
          · exact h
          · rw [h] at hspec
            exact absurd hspec (by simp)
        rfl
      · rw [if_neg hpre]
        rw [pot_stop_false u la hC hO hspec hnolt hcond]
        show flattenOut ((ContentType.TEXT, u.take la) :: []) ++
          pendFlat (u.drop la) false = _
        rw [flattenOut_cons, flattenOut_nil, List.append_nil]
        show taggedOf ContentType.TEXT (u.take la) ++
          taggedOf ContentType.TEXT (u.drop la) = _
        rw [← taggedOf_append, List.take_append_drop]
    · rw [runThink_false_emitall u hC hO (Or.inr ⟨la, hlb, hcond⟩)]
      have hune : u ≠ [] := by
        intro h
        rw [h] at hspec
        simp at hspec
      rw [if_neg hune]
      show flattenOut [(ContentType.TEXT, u)] ++ pendFlat [] false = _
      rw [flattenOut_cons, flattenOut_nil, List.append_nil]
      show taggedOf ContentType.TEXT u ++ taggedOf ContentType.TEXT [] = _
      rw [taggedOf_nil, List.append_nil]
  | none =>
    rw [runThink_false_emitall u hC hO (Or.inl hlb)]
    by_cases hune : u = []
    · rw [if_pos hune, hune]
      rfl
    · rw [if_neg hune]
      show flattenOut [(ContentType.TEXT, u)] ++ pendFlat [] false = _
      rw [flattenOut_cons, flattenOut_nil, List.append_nil]
      show taggedOf ContentType.TEXT u ++ taggedOf ContentType.TEXT [] = _
      rw [taggedOf_nil, List.append_nil]

theorem runThink_span (inner rest : List Char)
    (hCi : findSub CLOSE_TAG inner = none) :
    flattenOut (runThink false (OPEN_TAG ++ (inner ++ (CLOSE_TAG ++ rest)))).1 =
      taggedOf ContentType.THINKING inner ++ flattenOut (runThink false rest).1 ∧
    (runThink false (OPEN_TAG ++ (inner ++ (CLOSE_TAG ++ rest)))).2 =
      (runThink false rest).2 := by
  have hts : findSub OPEN_TAG (OPEN_TAG ++ (inner ++ (CLOSE_TAG ++ rest))) = some 0 := by
    rw [findSub_some_iff]
    constructor
    · unfold occAt
      rw [List.drop_zero]
      exact List.prefix_append _ _
    · intro q hq
      exact absurd hq (Nat.not_lt_zero q)
  have hdisj : findSub CLOSE_TAG (OPEN_TAG ++ (inner ++ (CLOSE_TAG ++ rest))) = none ∨
      ∃ oc, findSub CLOSE_TAG (OPEN_TAG ++ (inner ++ (CLOSE_TAG ++ rest))) = some oc ∧
        ¬ oc < 0 := by
    cases h : findSub CLOSE_TAG (OPEN_TAG ++ (inner ++ (CLOSE_TAG ++ rest))) with
    | none => exact Or.inl rfl
    | some oc => exact Or.inr ⟨oc, rfl, Nat.not_lt_zero oc⟩
  rw [runThink_false_open _ 0 hts hdisj,
    emitCons_empty _ _
      (show List.take 0 (OPEN_TAG ++ (inner ++ (CLOSE_TAG ++ rest))) = [] from rfl)]
  have hdrop7 : (OPEN_TAG ++ (inner ++ (CLOSE_TAG ++ rest))).drop (0 + 7) =
      inner ++ (CLOSE_TAG ++ rest) := by
    rw [show (0 + 7 : ℕ) = OPEN_TAG.length from rfl, List.drop_left]
  rw [hdrop7]
  have hte : findSub CLOSE_TAG (inner ++ (CLOSE_TAG ++ rest)) = some inner.length :=
    findSub_boundary rest noBorder_CLOSE ((findSub_none_iff CLOSE_TAG inner).mp hCi)
  rw [runThink_true_close _ inner.length hte]
  have htakei : (inner ++ (CLOSE_TAG ++ rest)).take inner.length = inner :=
    List.take_left _ _
  have hdropi : (inner ++ (CLOSE_TAG ++ rest)).drop (inner.length + 8) = rest := by
    rw [← List.drop_drop, List.drop_left,
      show (8 : ℕ) = CLOSE_TAG.length from rfl, List.drop_left]
  rw [htakei, hdropi]
  constructor
  · rw [flattenOut_emitCons]
  · rw [emitCons_snd]

theorem cross_take : ∀ k, 0 < k → k < 8 → CLOSE_TAG.drop k ≠ OPEN_TAG.take (8 - k) := by
  have h : ∀ k, k < 8 → (0 < k → CLOSE_TAG.drop k ≠ OPEN_TAG.take (8 - k)) := by decide
  intro k hk1 hk2
  exact h k hk2 hk1

theorem renderSpans_cons (sp : List Char × List Char)
    (rest : List (List Char × List Char)) :
    renderSpans (sp :: rest) =
      OPEN_TAG ++ (sp.1 ++ (CLOSE_TAG ++ (sp.2 ++ renderSpans rest))) := by
  unfold renderSpans
  rw [List.flatMap_cons]
  simp [List.append_assoc]

theorem textPrefix_before_spans (u : List Char)
    (hO : findSub OPEN_TAG u = none) (hC : findSub CLOSE_TAG u = none)
    (sp : List Char × List Char) (rest : List (List Char × List Char)) :
    flattenOut (runThink false (u ++ renderSpans (sp :: rest))).1 =
      taggedOf ContentType.TEXT u ++
        flattenOut (runThink false (renderSpans (sp :: rest))).1 ∧
    (runThink false (u ++ renderSpans (sp :: rest))).2 =
      (runThink false (renderSpans (sp :: rest))).2 := by
  have hz : renderSpans (sp :: rest) =
      OPEN_TAG ++ (sp.1 ++ (CLOSE_TAG ++ (sp.2 ++ renderSpans rest))) :=
    renderSpans_cons sp rest
  have hsO : ∀ q, ¬ occAt OPEN_TAG u q := (findSub_none_iff _ _).mp hO
  have hsC : ∀ q, ¬ occAt CLOSE_TAG u q := (findSub_none_iff _ _).mp hC
  have h1o : ∀ q, q < u.length →
      ¬ occAt OPEN_TAG (u ++ renderSpans (sp :: rest)) q := by
    rw [hz]
    refine no_occ_straddle hsO ?_
    intro k hk1 hk2 _ hpre
    have hlen : (OPEN_TAG.drop k).length ≤ OPEN_TAG.length := by
      rw [List.length_drop]
      omega
    have hp2 := prefix_of_append_left hpre hlen
    rw [List.prefix_iff_eq_take, List.length_drop] at hp2
    exact noBorder_OPEN k hk1 hk2 hp2
  have h1c : ∀ q, q < u.length →
      ¬ occAt CLOSE_TAG (u ++ renderSpans (sp :: rest)) q := by
    rw [hz]
    refine no_occ_straddle hsC ?_
    intro k hk1 hk2 _ hpre
    rw [CLOSE_TAG_len] at hk2
    have hlen : (CLOSE_TAG.drop k).length ≤ OPEN_TAG.length := by
      rw [List.length_drop, CLOSE_TAG_len, OPEN_TAG_len]
      omega
    have hp2 := prefix_of_append_left hpre hlen
    rw [List.prefix_iff_eq_take, List.length_drop, CLOSE_TAG_len] at hp2
    exact cross_take k hk1 hk2 hp2
  have h2 : ∀ l, rfindSub ['<'] u = some l → '<' ∈ renderSpans (sp :: rest) ∨
      ¬ (((u.drop l).length < 7 ∧ u.drop l <+: OPEN_TAG) ∨
        ((u.drop l).length < 8 ∧ u.drop l <+: CLOSE_TAG)) := by
    intro l _
    refine Or.inl ?_
    rw [hz]
    exact List.mem_append_left _ (show '<' ∈ OPEN_TAG by decide)
  exact runThink_false_textPrefix u (renderSpans (sp :: rest)) h1o h1c h2

theorem runThink_spans (spans : List (List Char × List Char))
    (hok : ∀ sp ∈ spans, NoTags sp.1 ∧ NoTags sp.2) :
    flattenOut (runThink false (renderSpans spans)).1 ++
      pendFlat (runThink false (renderSpans spans)).2.1
        (runThink false (renderSpans spans)).2.2 =
      spans.flatMap (fun sp => taggedOf ContentType.THINKING sp.1 ++
        taggedOf ContentType.TEXT sp.2) := by
  induction spans with
  | nil =>
    rw [show renderSpans [] = [] from rfl, runThink_nil]
    rfl
  | cons sp rest ihs =>
    have hsp := hok sp (List.mem_cons_self _ _)
    have hrest : ∀ s ∈ rest, NoTags s.1 ∧ NoTags s.2 := fun s hs =>
      hok s (List.mem_cons_of_mem _ hs)
    rw [renderSpans_cons sp rest]
    rcases runThink_span sp.1 (sp.2 ++ renderSpans rest) hsp.1.2 with ⟨hK1, hK2⟩
    rw [hK1, hK2]
    have hTXT : flattenOut (runThink false (sp.2 ++ renderSpans rest)).1 ++
        pendFlat (runThink false (sp.2 ++ renderSpans rest)).2.1
          (runThink false (sp.2 ++ renderSpans rest)).2.2 =
        taggedOf ContentType.TEXT sp.2 ++
          (flattenOut (runThink false (renderSpans rest)).1 ++
            pendFlat (runThink false (renderSpans rest)).2.1
              (runThink false (renderSpans rest)).2.2) := by
      cases rest with
      | nil =>
        rw [show renderSpans [] = [] from rfl, List.append_nil, runThink_nil,
          runThink_text_total sp.2 hsp.2.1 hsp.2.2]
        simp [flattenOut_nil, pendFlat, taggedOf_nil]
      | cons sp2 rest2 =>
        rcases textPrefix_before_spans sp.2 hsp.2.1 hsp.2.2 sp2 rest2 with ⟨hE1, hE2⟩
        rw [hE1, hE2, List.append_assoc]
    rw [List.append_assoc, hTXT, ihs hrest, List.flatMap_cons, List.append_assoc]

theorem runThink_doc (d : ThinkDoc) (hok : docOK d) :
    flattenOut (runThink false (renderDoc d)).1 ++
      pendFlat (runThink false (renderDoc d)).2.1
        (runThink false (renderDoc d)).2.2 =
      refStream d := by
  rcases hok with ⟨hlead, hspans⟩
  rw [show renderDoc d = d.lead ++ renderSpans d.spans from rfl,
    show refStream d = taggedOf ContentType.TEXT d.lead ++
      d.spans.flatMap (fun sp => taggedOf ContentType.THINKING sp.1 ++
        taggedOf ContentType.TEXT sp.2) from rfl]
  cases hsp : d.spans with
  | nil =>
    rw [show renderSpans [] = [] from rfl, List.append_nil,
      runThink_text_total d.lead hlead.1 hlead.2, List.flatMap_nil, List.append_nil]
  | cons sp rest =>
    have hok2 : ∀ s ∈ sp :: rest, NoTags s.1 ∧ NoTags s.2 := by
      rw [← hsp]
      exact hspans
    rcases textPrefix_before_spans d.lead hlead.1 hlead.2 sp rest with ⟨hE1, hE2⟩
    rw [hE1, hE2, List.append_assoc, runThink_spans (sp :: rest) hok2]

theorem snd_taggedOf (ty : ContentType) (s : List Char) :
    (taggedOf ty s).map Prod.snd = s := by
  unfold taggedOf
  rw [List.map_map]
  simp [Function.comp]

theorem snd_flattenOut (outs : List (ContentType × List Char)) :
    (flattenOut outs).map Prod.snd = outs.flatMap (fun o => o.2) := by
  induction outs with
  | nil => rfl
  | cons o l ih =>
    rw [flattenOut_cons, List.map_append, ih, List.flatMap_cons, snd_taggedOf]

theorem snd_refStream (d : ThinkDoc) :
    (refStream d).map Prod.snd = stripTags d := by
  unfold refStream stripTags
  rw [List.map_append, snd_taggedOf]
  congr 1
  induction d.spans with
  | nil => rfl
  | cons sp rest ih =>
    rw [List.flatMap_cons, List.map_append, List.map_append, snd_taggedOf, snd_taggedOf,
      ih, List.flatMap_cons]

theorem filter_taggedOf (ty ty' : ContentType) (s : List Char) :
    (taggedOf ty' s).filter (fun x => decide (x.1 = ty)) =
      if ty' = ty then taggedOf ty' s else [] := by
  unfold taggedOf
  rw [List.filter_map]
  by_cases h : ty' = ty
  · rw [if_pos h]
    have hfn : (fun x : ContentType × Char => decide (x.1 = ty)) ∘
        (fun c => (ty', c)) = fun _ => true := by
      funext c
      simp [h]
    rw [hfn, List.filter_true]
  · rw [if_neg h]
    have hfn : (fun x : ContentType × Char => decide (x.1 = ty)) ∘
        (fun c => (ty', c)) = fun _ => false := by
      funext c
      simp [h]
    rw [hfn]
    simp

theorem filter_flattenOut (ty : ContentType) (outs : List (ContentType × List Char)) :
    ((flattenOut outs).filter (fun x => decide (x.1 = ty))).map Prod.snd =
      concatOf ty outs := by
  induction outs with
  | nil => rfl
  | cons o l ih =>
    rw [flattenOut_cons, List.filter_append, List.map_append, ih, filter_taggedOf]
    show (if o.1 = ty then taggedOf o.1 o.2 else []).map Prod.snd ++ concatOf ty l =
      concatOf ty (o :: l)
    unfold concatOf
    rw [List.filter_cons]
    by_cases h : o.1 = ty
    · rw [if_pos h, if_pos (by simp [h]), List.flatMap_cons, snd_taggedOf]
    · rw [if_neg h, if_neg (by simp [h])]
      simp

theorem C2_master (d : ThinkDoc) (chunks : List (List Char))
    (hok : docOK d) (hx : chunks.flatten = renderDoc d) :
    flattenOut ((tpFeedMany tpInit chunks).1 ++ tpFlush (tpFeedMany tpInit chunks).2) =
      refStream d := by
  rw [flattenOut_append]
  have hstop : runThink tpInit.inThinkTag tpInit.buffer =
      ([], tpInit.buffer, tpInit.inThinkTag) := runThink_nil false
  have hM := tpFeedMany_eq_single chunks tpInit hstop
  rw [hM, flattenOut_tpFlush]
  have hbuf : tpInit.buffer ++ chunks.flatten = renderDoc d := by
    rw [show tpInit.buffer = ([] : List Char) from rfl, List.nil_append]
    exact hx
  rw [hbuf, show tpInit.inThinkTag = false from rfl]
  exact runThink_doc d hok

theorem C2_master_single (d : ThinkDoc) (hok : docOK d) :
    flattenOut ((tpFeed tpInit (renderDoc d)).1 ++
      tpFlush (tpFeed tpInit (renderDoc d)).2) = refStream d := by
  have hM := C2_master d [renderDoc d] hok
    (by rw [List.flatten_cons, List.flatten_nil, List.append_nil])
  have hstep : tpFeedMany tpInit [renderDoc d] =
      ((tpFeed tpInit (renderDoc d)).1 ++ [], (tpFeed tpInit (renderDoc d)).2) := rfl
  rw [hstep] at hM
  rw [flattenOut_append]
  rw [flattenOut_append, List.append_nil] at hM
  exact hM

/-- C2: for every input whose `<think>...</think>` tags are properly matched
(modelled as a `ThinkDoc` whose fragments contain no tag, rendered to the
input string) and for every partition of that string into chunks, feeding
the chunks to `ThinkTagParser.feed` followed by `flush()` yields chunks
whose contents, concatenated in emit order, equal the input minus the tag
bytes; moreover for each content type (TEXT and THINKING) the concatenated
bytes equal those produced by a single `feed` of the whole string followed
by `flush()`. -/
theorem C2_roundtrip_chunk_invariance (d : ThinkDoc) (chunks : List (List Char))
    (hok : docOK d) (hx : chunks.flatten = renderDoc d) :
    (((tpFeedMany tpInit chunks).1 ++ tpFlush (tpFeedMany tpInit chunks).2).flatMap
        (fun o => o.2) = stripTags d) ∧
    (∀ ty : ContentType,
      concatOf ty ((tpFeedMany tpInit chunks).1 ++ tpFlush (tpFeedMany tpInit chunks).2) =
        concatOf ty ((tpFeed tpInit (renderDoc d)).1 ++
          tpFlush (tpFeed tpInit (renderDoc d)).2)) := by
  have hM := C2_master d chunks hok hx
  have hS := C2_master_single d hok
  constructor
  · rw [← snd_flattenOut, hM, snd_refStream]
  · intro ty
    rw [← filter_flattenOut, ← filter_flattenOut, hM, hS]

/-- Witness for C2 at the concrete document "a<think>b</think>c" split into
the chunks "a<th" / "ink>b</th" / "ink>c" (both cuts inside a tag). -/
theorem C2_witness :
    docOK ⟨"a".data, [("b".data, "c".data)]⟩ ∧
    (["a<th".data, "ink>b</th".data, "ink>c".data] : List (List Char)).flatten =
      renderDoc ⟨"a".data, [("b".data, "c".data)]⟩ ∧
    ((((tpFeedMany tpInit ["a<th".data, "ink>b</th".data, "ink>c".data]).1 ++
        tpFlush (tpFeedMany tpInit
          ["a<th".data, "ink>b</th".data, "ink>c".data]).2).flatMap
        (fun o => o.2) = stripTags ⟨"a".data, [("b".data, "c".data)]⟩) ∧
      (∀ ty : ContentType,
        concatOf ty ((tpFeedMany tpInit
            ["a<th".data, "ink>b</th".data, "ink>c".data]).1 ++
          tpFlush (tpFeedMany tpInit
            ["a<th".data, "ink>b</th".data, "ink>c".data]).2) =
          concatOf ty ((tpFeed tpInit
              (renderDoc ⟨"a".data, [("b".data, "c".data)]⟩)).1 ++
            tpFlush (tpFeed tpInit
              (renderDoc ⟨"a".data, [("b".data, "c".data)]⟩)).2))) :=
  ⟨by decide, by decide,
    C2_roundtrip_chunk_invariance ⟨"a".data, [("b".data, "c".data)]⟩
      ["a<th".data, "ink>b</th".data, "ink>c".data] (by decide) (by decide)⟩

end Spec2Proof
